import Mathlib

/-!
Verification of the sth-deploy-tool core: a shallow embedding of the
registry client (src/utils/registry.js) and of the deployment handler
(main process), together with proofs about the tag patcher, the manifest
locator, the blob pusher, the auth transport and the orchestrator traces.

All definitions are translated from the JavaScript source.  Machine text
is modelled as List Char, file bytes as List Nat, and every fallible
operation is given an explicit oracle describing the responses of the
outside world (registry, token endpoint, file system).
-/

set_option autoImplicit false

namespace SthDeploy

/-! ### JavaScript regular-expression character classes

The tag patcher runs content.replace(p, repl) with the pattern
p = (image:\s+.*ID:)(.*) compiled with the g flag.  We model the exact
character classes of the JavaScript engine: \s matches the usual white
space including line terminators, while the dot matches everything
except the four line terminators. -/

def jsWs (c : Char) : Bool :=
  c = ' ' || c = '\t' || c = '\n' || c = '\r' ||
  c = Char.ofNat 11 || c = Char.ofNat 12 || c = Char.ofNat 160 ||
  c = Char.ofNat 0x1680 || (0x2000 ≤ c.toNat && c.toNat ≤ 0x200A) ||
  c = Char.ofNat 0x2028 || c = Char.ofNat 0x2029 || c = Char.ofNat 0x202F ||
  c = Char.ofNat 0x205F || c = Char.ofNat 0x3000 || c = Char.ofNat 0xFEFF

def jsLineTerm (c : Char) : Bool :=
  c = '\n' || c = '\r' || c = Char.ofNat 0x2028 || c = Char.ofNat 0x2029

def jsDot (c : Char) : Bool := !jsLineTerm c

/-- Length of the maximal run of characters satisfying p at the head. -/
def runLen (p : Char → Bool) : List Char → Nat
  | [] => 0
  | c :: cs => if p c then runLen p cs + 1 else 0

/-- The literal lit occurs at offset q of cs. -/
def litAt (lit cs : List Char) (q : Nat) : Bool := lit.isPrefixOf (cs.drop q)

/-- Backtracking search of the greedy dot-star: offsets are tried from the
given bound downward, which is how the engine gives characters back to
the dot-star one at a time. -/
def findQ (lit after : List Char) : Nat → Option Nat
  | 0 => if litAt lit after 0 then some 0 else none
  | q + 1 => if litAt lit after (q + 1) then some (q + 1) else findQ lit after q

/-- Backtracking search of the greedy one-or-more white-space run: the
run length a is tried from the maximal run downward; for each a the
dot-star is searched greedily. Returns the chosen pair (a, q). -/
def tryA (lit rest6 : List Char) : Nat → Option (Nat × Nat)
  | 0 => none
  | a + 1 =>
    match findQ lit (rest6.drop (a + 1)) (runLen jsDot (rest6.drop (a + 1))) with
    | some q => some (a + 1, q)
    | none => tryA lit rest6 a

def imageLit : List Char := ['i', 'm', 'a', 'g', 'e', ':']

/-- Attempt of the whole pattern at the head of cs, for identifier idc.
On success returns (length of group one, length of the whole match):
group one is image: plus the white space, the dot-star and the literal
idc followed by a colon; group two is a greedy dot-star. -/
def tryMatch (idc cs : List Char) : Option (Nat × Nat) :=
  if imageLit.isPrefixOf cs then
    match tryA (idc ++ [':']) (cs.drop 6) (runLen jsWs (cs.drop 6)) with
    | some (a, q) =>
      some (6 + a + q + (idc.length + 1),
            6 + a + q + (idc.length + 1) +
              runLen jsDot (cs.drop (6 + a + q + (idc.length + 1))))
    | none => none
  else none

/-- Global replace: the scan walks left to right, and at each match emits
group one followed by the replacement tag, then resumes after the match.
The skip counter carries the remaining length of the current match, so
that the scan resumes exactly at its end. -/
def scanSkip (idc tag : List Char) : Nat → List Char → List Char
  | _, [] => []
  | s + 1, _ :: cs => scanSkip idc tag s cs
  | 0, c :: cs =>
    match tryMatch idc (c :: cs) with
    | some (g1, len) =>
        (c :: cs).take g1 ++ tag ++ scanSkip idc tag (len - 1) cs
    | none => c :: scanSkip idc tag 0 cs

def replaceScan (idc tag l : List Char) : List Char := scanSkip idc tag 0 l

/-- Model of updateYaml from the main process: a single global
pattern substitution over the whole file content. -/
def updateYaml (content identifier newTag : String) : String :=
  String.mk (replaceScan identifier.toList newTag.toList content.toList)

/-! ### Line-level reading of the substitution -/

/-- First offset of a line at which the pattern matches, together with
the group-one length there. -/
def lineMatchAt (idc : List Char) : List Char → Option (Nat × Nat)
  | [] => none
  | c :: cs =>
    match tryMatch idc (c :: cs) with
    | some (g1, _) => some (0, g1)
    | none =>
      match lineMatchAt idc cs with
      | some (i, g1) => some (i + 1, g1)
      | none => none

def lineMatches (idc line : List Char) : Bool := (lineMatchAt idc line).isSome

/-- Effect of the substitution on a single line. -/
def patchLine (idc tag line : List Char) : List Char :=
  match lineMatchAt idc line with
  | some (i, g1) => line.take (i + g1) ++ tag
  | none => line

/-- Split on a separator character, in the manner of the JavaScript
string split: n separators yield n + 1 pieces. -/
def splitOnCh (sep : Char) : List Char → List (List Char)
  | [] => [[]]
  | c :: cs =>
    if c = sep then [] :: splitOnCh sep cs
    else
      match splitOnCh sep cs with
      | l :: ls => (c :: l) :: ls
      | [] => [[c]]

def joinCh (sep : Char) : List (List Char) → List Char
  | [] => []
  | [l] => l
  | l :: l2 :: ls => l ++ sep :: joinCh sep (l2 :: ls)

def splitOnNl (l : List Char) : List (List Char) := splitOnCh '\n' l

def joinNl (ls : List (List Char)) : List Char := joinCh '\n' ls

/-- Characters we allow in identifiers and tags: ASCII letters, digits,
dash and underscore.  On these the construction new RegExp(..identifier..)
treats the identifier literally (none is a pattern metacharacter outside
a character class) and the replacement string has no special form; a dot,
although common in identifiers, is a wildcard there and is refused. -/
def plainChar (c : Char) : Bool := c.isAlphanum || c = '-' || c = '_'

def plainStr (l : List Char) : Prop := ∀ c ∈ l, plainChar c = true

instance plainStrDec (l : List Char) : Decidable (plainStr l) := by
  unfold plainStr
  infer_instance

/-- Well-formedness of one line for the line-by-line reading: the line
holds no line terminator, and every occurrence of image: on the line is
followed by at least one character that is not white space, so that the
white-space run of a match never crosses the end of the line. -/
def LineOk (line : List Char) : Prop :=
  (∀ c ∈ line, jsLineTerm c = false) ∧
  (∀ i, imageLit.isPrefixOf (line.drop i) = true →
    ∃ c ∈ line.drop (i + 6), jsWs c = false)

/-! ### Registry transport: request with bearer challenge retry

Model of RegistryClient.request in src/utils/registry.js.  The auth
header is either Basic (set by login) or Bearer (set by a successful
challenge).  Each call receives an oracle describing the response of the
registry, the token endpoint and the retried request. -/

inductive AuthHeader where
  | basic (cred : String)
  | bearer (tok : String)
deriving DecidableEq

/-- Parsed fields of a www-authenticate header: the scheme check is
startsWith bearer, the fields are captured by regular expressions where
service and scope default to the empty string. -/
structure Challenge where
  bearerScheme : Bool
  realm : Option String
  service : String
  scope : String
deriving DecidableEq

structure HttpResp where
  payload : String
deriving DecidableEq

inductive HttpOutcome where
  | ok (resp : HttpResp)
  | err (status : Option Nat) (challenge : Option Challenge)
deriving DecidableEq

inductive TokenOutcome where
  | netFail
  | noToken
  | tok (t : String)
deriving DecidableEq

structure CallOracle where
  first : HttpOutcome
  token : TokenOutcome
  second : HttpOutcome

inductive ReqEvent where
  | attempt (auth : Option AuthHeader)
  | tokenFetch (url : String) (auth : Option AuthHeader)
  | retry (auth : Option AuthHeader)
deriving DecidableEq

inductive ReqError where
  | http (status : Option Nat) (challenge : Option Challenge)
  | tokenNet
deriving DecidableEq

def tokenUrl (realm service scope : String) : String :=
  realm ++ "?service=" ++ service ++ "&scope=" ++ scope

/-- The request only handles a challenge when the response is present
with status 401, carries a www-authenticate value with the bearer
scheme, and the realm expression captures. -/
def challengeHandled : HttpOutcome → Option (Challenge × String)
  | .err (some 401) (some c) =>
    if c.bearerScheme then
      match c.realm with
      | some r => some (c, r)
      | none => none
    else none
  | _ => none

/-- One call of RegistryClient.request: issue the request with the
current auth header attached; on a handled challenge fetch a token from
the realm url with the current header, upgrade the session header to
bearer and retry the original request exactly once.  Returns the call
result, the session header afterwards, and the trace of attempts. -/
def request (auth : Option AuthHeader) (o : CallOracle) :
    Except ReqError HttpResp × Option AuthHeader × List ReqEvent :=
  match o.first with
  | .ok r => (.ok r, auth, [.attempt auth])
  | .err status ch =>
    match challengeHandled (.err status ch) with
    | some (c, r) =>
      let url := tokenUrl r c.service c.scope
      match o.token with
      | .netFail => (.error .tokenNet, auth, [.attempt auth, .tokenFetch url auth])
      | .noToken => (.error (.http status ch), auth, [.attempt auth, .tokenFetch url auth])
      | .tok t =>
        let auth2 := some (AuthHeader.bearer t)
        match o.second with
        | .ok r2 => (.ok r2, auth2, [.attempt auth, .tokenFetch url auth, .retry auth2])
        | .err s2 c2 =>
          (.error (.http s2 c2), auth2, [.attempt auth, .tokenFetch url auth, .retry auth2])
    | none => (.error (.http status ch), auth, [.attempt auth])

/-- A sequence of request calls on one client instance, threading the
session header. -/
def runRequests (auth : Option AuthHeader) :
    List CallOracle → Option AuthHeader × List ReqEvent
  | [] => (auth, [])
  | o :: os =>
    let r := request auth o
    let rest := runRequests r.2.1 os
    (rest.1, r.2.2 ++ rest.2)

def isBearer : Option AuthHeader → Bool
  | some (.bearer _) => true
  | _ => false

def eventAuth : ReqEvent → Option AuthHeader
  | .attempt a => a
  | .tokenFetch _ a => a
  | .retry a => a

/-- login: set a Basic session when both credentials are given, none
otherwise; the base url defaults to plain http when no scheme is given.
The base64 step of the source is abstracted into the stored credential
pair, which no claim inspects. -/
def login (username password registryUrl : String) : Option AuthHeader × String :=
  (if username ≠ "" ∧ password ≠ "" then
     some (AuthHeader.basic (username ++ ":" ++ password))
   else none,
   if registryUrl.startsWith "http" then registryUrl else "http://" ++ registryUrl)

/-! ### Blob pusher

Model of the pushBlob helper inside pushTarball: a digest and size are
computed from the file bytes, a HEAD existence check decides whether the
upload is skipped, and the upload is a POST creating a session followed
by one monolithic PUT. -/

inductive RegReq where
  | headBlob (path : String)
  | postUpload (path : String)
  | putBlob (url : String)
  | putManifest (path : String)
deriving DecidableEq

inductive HeadOutcome where
  | ok
  | errStatus (status : Nat)
  | errNoResp
deriving DecidableEq

structure BlobOracle where
  head : HeadOutcome
  post : Except Unit String
  put : Except Unit Unit

structure BlobPushOut where
  result : Except Unit (String × Nat)
  reqs : List RegReq
  warned : Bool

def digestOf (hash : List Nat → String) (bytes : List Nat) : String :=
  "sha256:" ++ hash bytes

def uploadUrlOf (registryUrl loc : String) : String :=
  if loc.startsWith "http" then loc
  else registryUrl ++ (if loc.startsWith "/" then "" else "/") ++ loc

def finalUploadUrl (registryUrl loc digest : String) : String :=
  uploadUrlOf registryUrl loc ++
    (if (uploadUrlOf registryUrl loc).contains '?' then "&" else "?") ++
    "digest=" ++ digest

def headWarn : HeadOutcome → Bool
  | .errStatus s => s != 404
  | _ => false

def pushBlob (hash : List Nat → String) (registryUrl repository : String)
    (bytes : List Nat) (o : BlobOracle) : BlobPushOut :=
  match o.head with
  | .ok =>
    ⟨.ok (digestOf hash bytes, bytes.length),
      [.headBlob ("/v2/" ++ repository ++ "/blobs/" ++ digestOf hash bytes)], false⟩
  | other =>
    match o.post with
    | .error _ =>
      ⟨.error (),
        [.headBlob ("/v2/" ++ repository ++ "/blobs/" ++ digestOf hash bytes),
         .postUpload ("/v2/" ++ repository ++ "/blobs/uploads/")], headWarn other⟩
    | .ok loc =>
      match o.put with
      | .error _ =>
        ⟨.error (),
          [.headBlob ("/v2/" ++ repository ++ "/blobs/" ++ digestOf hash bytes),
           .postUpload ("/v2/" ++ repository ++ "/blobs/uploads/"),
           .putBlob (finalUploadUrl registryUrl loc (digestOf hash bytes))], headWarn other⟩
      | .ok _ =>
        ⟨.ok (digestOf hash bytes, bytes.length),
          [.headBlob ("/v2/" ++ repository ++ "/blobs/" ++ digestOf hash bytes),
           .postUpload ("/v2/" ++ repository ++ "/blobs/uploads/"),
           .putBlob (finalUploadUrl registryUrl loc (digestOf hash bytes))], headWarn other⟩

/-! ### Archive index and pushTarball -/

structure Descriptor where
  mediaType : String
  size : Nat
  digest : String
deriving DecidableEq

structure Manifest where
  schemaVersion : Nat
  mediaType : String
  config : Descriptor
  layers : List Descriptor
deriving DecidableEq

/-- One entry of the index document manifest.json, with the field names
of the docker save format. -/
structure ImageMeta where
  Config : String
  Layers : List String

/-- An extracted archive: the parsed index array plus the raw files by
name. -/
structure Archive where
  index : List ImageMeta
  files : String → Option (List Nat)

def manifestMediaType : String := "application/vnd.docker.distribution.manifest.v2+json"

def configMediaType : String := "application/vnd.docker.container.image.v1+json"

def layerMediaType : String := "application/vnd.docker.image.rootfs.diff.tar.gzip"

inductive PushEvent where
  | mkTempDir
  | reg (r : RegReq)
  | removeTempDir
deriving DecidableEq

/-- The for loop over layer files, pushing each blob in index order. -/
def pushLayersGo (hash : List Nat → String) (registryUrl repository : String)
    (files : String → Option (List Nat)) (oracles : Nat → BlobOracle) :
    Nat → List String → Except Unit (List (String × Nat)) × List RegReq
  | _, [] => (.ok [], [])
  | i, f :: fs =>
    match files f with
    | none => (.error (), [])
    | some bytes =>
      match (pushBlob hash registryUrl repository bytes (oracles i)).result with
      | .error _ => (.error (), (pushBlob hash registryUrl repository bytes (oracles i)).reqs)
      | .ok d =>
        match (pushLayersGo hash registryUrl repository files oracles (i + 1) fs).1 with
        | .error _ =>
          (.error (), (pushBlob hash registryUrl repository bytes (oracles i)).reqs ++
            (pushLayersGo hash registryUrl repository files oracles (i + 1) fs).2)
        | .ok ds =>
          (.ok (d :: ds), (pushBlob hash registryUrl repository bytes (oracles i)).reqs ++
            (pushLayersGo hash registryUrl repository files oracles (i + 1) fs).2)

/-- pushTarball after extraction: parse the index, push the config blob,
push every layer blob in index order, build the schema two manifest from
the returned digests and sizes, put the manifest, and remove the
temporary extraction directory only on the success path. -/
def pushTarball (hash : List Nat → String) (registryUrl repository tag : String)
    (ar : Archive) (oConfig : BlobOracle) (oLayers : Nat → BlobOracle)
    (oManifest : Except Unit Unit) : Except Unit Manifest × List PushEvent :=
  match ar.index.head? with
  | none => (.error (), [.mkTempDir])
  | some meta =>
    match ar.files meta.Config with
    | none => (.error (), [.mkTempDir])
    | some configBytes =>
      match (pushBlob hash registryUrl repository configBytes oConfig).result with
      | .error _ =>
        (.error (), PushEvent.mkTempDir ::
          (pushBlob hash registryUrl repository configBytes oConfig).reqs.map .reg)
      | .ok cRes =>
        match (pushLayersGo hash registryUrl repository ar.files oLayers 0 meta.Layers).1 with
        | .error _ =>
          (.error (), PushEvent.mkTempDir ::
            ((pushBlob hash registryUrl repository configBytes oConfig).reqs.map .reg ++
             (pushLayersGo hash registryUrl repository ar.files oLayers 0
               meta.Layers).2.map .reg))
        | .ok lRes =>
          match oManifest with
          | .error _ =>
            (.error (), PushEvent.mkTempDir ::
              ((pushBlob hash registryUrl repository configBytes oConfig).reqs.map .reg ++
               (pushLayersGo hash registryUrl repository ar.files oLayers 0
                 meta.Layers).2.map .reg ++
               [.reg (.putManifest ("/v2/" ++ repository ++ "/manifests/" ++ tag))]))
          | .ok _ =>
            (.ok { schemaVersion := 2
                   mediaType := manifestMediaType
                   config := ⟨configMediaType, cRes.2, cRes.1⟩
                   layers := lRes.map fun d => ⟨layerMediaType, d.2, d.1⟩ },
              PushEvent.mkTempDir ::
                ((pushBlob hash registryUrl repository configBytes oConfig).reqs.map .reg ++
                 (pushLayersGo hash registryUrl repository ar.files oLayers 0
                   meta.Layers).2.map .reg ++
                 [.reg (.putManifest ("/v2/" ++ repository ++ "/manifests/" ++ tag)),
                  .removeTempDir]))

/-! ### Tar extraction loop -/

structure TarEntry where
  name : String
  isDir : Bool
  content : List Nat

inductive WriteEvent where
  | makeDir (path : String)
  | writeFile (path : String) (content : List Nat)
deriving DecidableEq

/-- The extraction entry handler: every entry is written; directory
entries create a directory and file entries stream their bytes to the
matching path.  The implicit creation of parent directories by
fs.ensureDirSync is not recorded. -/
def extractTar (tempDir : String) (entries : List TarEntry) : List WriteEvent :=
  entries.map fun e =>
    if e.isDir then .makeDir (tempDir ++ "/" ++ e.name)
    else .writeFile (tempDir ++ "/" ++ e.name) e.content

/-- Substring test in the manner of the JavaScript includes. -/
def containsSub (pat : List Char) : List Char → Bool
  | [] => pat.isEmpty
  | c :: cs => pat.isPrefixOf (c :: cs) || containsSub pat cs

/-! ### Manifest locator -/

inductive FsNode where
  | file (name : String) (content : String)
  | dir (name : String) (children : List FsNode)

def gitName : List Char := ['.', 'g', 'i', 't']

mutual

/-- getAllFiles: walk the entries in listing order; a directory whose
name holds .git is skipped, any other directory is walked recursively in
place, and files are collected with their repository-relative path. -/
def getAllFilesNode (pre : String) : FsNode → List (String × String)
  | .file n c => [(pre ++ n, c)]
  | .dir n ch =>
    if containsSub gitName n.toList then []
    else getAllFilesList (pre ++ n ++ "/") ch

def getAllFilesList (pre : String) : List FsNode → List (String × String)
  | [] => []
  | node :: rest => getAllFilesNode pre node ++ getAllFilesList pre rest

end

def yamlSuffix : List Char := ['.', 'y', 'a', 'm', 'l']

def ymlSuffix : List Char := ['.', 'y', 'm', 'l']

def isYamlPath (p : String) : Bool :=
  yamlSuffix.isSuffixOf p.toList || ymlSuffix.isSuffixOf p.toList

/-- findYamlFile: the first collected file whose path ends in .yaml or
.yml and whose contents hold the identifier substring. -/
def findYamlFile (identifier : String) : List (String × String) → Option String
  | [] => none
  | (p, c) :: rest =>
    if isYamlPath p && containsSub identifier.toList c.toList then some p
    else findYamlFile identifier rest

/-- How the configured manifest path resolves inside the clone. -/
inductive HintCase where
  | noHint
  | missing (hint : String)
  | fileHint (hint : String)
  | dirHint (hint : String) (children : List FsNode)

/-- Manifest location logic of the run-deploy handler: an explicit path
that exists is used directly when a file and searched when a directory;
when the directory search fails, or the hint is absent or does not
exist, the whole repository tree is searched. -/
def hintTarget (hint : HintCase) (identifier : String) : Option String :=
  match hint with
  | .noHint => none
  | .missing _ => none
  | .fileHint h => some h
  | .dirHint h ch => findYamlFile identifier (getAllFilesList (h ++ "/") ch)

def locateManifest (repo : List FsNode) (hint : HintCase) (identifier : String) :
    Option String :=
  match hintTarget hint identifier with
  | some p => some p
  | none => findYamlFile identifier (getAllFilesList "" repo)

/-! ### Registry coordinate split and the deployment trace -/

/-- Heuristic of the run-deploy handler splitting the registry url on
the slash: with at least one separator the first piece is the host and
the rest joined is the repository; otherwise the whole string is the
host and the service name is the repository. -/
def splitCoord (registryUrl serviceName : String) : String × String :=
  let parts := splitOnCh '/' registryUrl.toList
  if 1 < parts.length then
    (String.mk (parts.headD []), String.mk (joinCh '/' parts.tail))
  else (registryUrl, serviceName)

inductive DeployEvent where
  | push (e : PushEvent)
  | makeRepoDir
  | clone
  | commit
  | gitPush
  | removeRepoDir
  | terminal (success : Bool)
deriving DecidableEq

/-- The run-deploy handler as an event trace: tar existence check, the
registry push, repository directory creation, clone, manifest location,
commit and git push; every failure jumps to the catch block which only
reports the terminal failure.  No path removes the repository clone
directory. -/
def runDeploy (hash : List Nat → String) (registryUrl repository tag : String)
    (ar : Archive) (oConfig : BlobOracle) (oLayers : Nat → BlobOracle)
    (oManifest : Except Unit Unit) (tarFound : Bool) (cloneOk : Bool)
    (located : Option String) (gitPushOk : Bool) : List DeployEvent :=
  if tarFound then
    match (pushTarball hash registryUrl repository tag ar oConfig oLayers oManifest).1 with
    | .error _ =>
      (pushTarball hash registryUrl repository tag ar oConfig oLayers
        oManifest).2.map DeployEvent.push ++ [.terminal false]
    | .ok _ =>
      if cloneOk then
        match located with
        | none =>
          (pushTarball hash registryUrl repository tag ar oConfig oLayers
            oManifest).2.map DeployEvent.push ++ [.makeRepoDir, .clone, .terminal false]
        | some _ =>
          if gitPushOk then
            (pushTarball hash registryUrl repository tag ar oConfig oLayers
              oManifest).2.map DeployEvent.push ++
              [.makeRepoDir, .clone, .commit, .gitPush, .terminal true]
          else
            (pushTarball hash registryUrl repository tag ar oConfig oLayers
              oManifest).2.map DeployEvent.push ++
              [.makeRepoDir, .clone, .commit, .gitPush, .terminal false]
      else
        (pushTarball hash registryUrl repository tag ar oConfig oLayers
          oManifest).2.map DeployEvent.push ++ [.makeRepoDir, .clone, .terminal false]
  else [.terminal false]

/-- Requests that transfer blob content to the registry. -/
def isUploadReq : RegReq → Bool
  | .postUpload _ => true
  | .putBlob _ => true
  | _ => false

/-- The path-addressed registry requests of a push all name the given
repository; the blob put goes to the server-supplied upload location. -/
def usesRepoPath (repo : String) : PushEvent → Prop
  | .reg (.headBlob p) => ∃ d, p = "/v2/" ++ repo ++ "/blobs/" ++ d
  | .reg (.postUpload p) => p = "/v2/" ++ repo ++ "/blobs/uploads/"
  | .reg (.putManifest p) => ∃ t, p = "/v2/" ++ repo ++ "/manifests/" ++ t
  | _ => True

/-! ### Basic facts about runs, literals and the backtracking search -/

theorem runLen_le_length (p : Char → Bool) : ∀ l : List Char, runLen p l ≤ l.length
  | [] => Nat.le_refl 0
  | c :: cs => by
    simp only [runLen, List.length_cons]
    split
    · exact Nat.succ_le_succ (runLen_le_length p cs)
    · exact Nat.zero_le _

theorem runLen_append_stop {p : Char → Bool} {l : List Char} (r : List Char)
    (h : ∃ c ∈ l, p c = false) : runLen p (l ++ r) = runLen p l := by
  induction l with
  | nil => obtain ⟨c, hc, _⟩ := h; cases hc
  | cons c cs ih =>
    simp only [List.cons_append, runLen, List.append_eq]
    by_cases hp : p c = true
    · simp only [hp, if_true]
      obtain ⟨d, hd, hdp⟩ := h
      rcases List.mem_cons.mp hd with rfl | hd
      · rw [hp] at hdp; cases hdp
      · rw [ih ⟨d, hd, hdp⟩]
    · simp only [Bool.not_eq_true] at hp
      simp [hp]

theorem runLen_all {p : Char → Bool} {l : List Char}
    (h : ∀ c ∈ l, p c = true) : runLen p l = l.length := by
  induction l with
  | nil => rfl
  | cons c cs ih =>
    have hc : p c = true := h c (List.mem_cons_self c cs)
    have ih2 := ih fun d hd => h d (List.mem_cons_of_mem c hd)
    simp [runLen, hc, ih2]

theorem runLen_all_append {p : Char → Bool} {l : List Char} {x : Char} (r : List Char)
    (hall : ∀ c ∈ l, p c = true) (hx : p x = false) :
    runLen p (l ++ x :: r) = l.length := by
  induction l with
  | nil => simp [runLen, hx]
  | cons c cs ih =>
    have hc : p c = true := hall c (List.mem_cons_self c cs)
    have ih2 := ih fun d hd => hall d (List.mem_cons_of_mem c hd)
    simp [runLen, hc, ih2]

theorem isPrefixOf_le_length {lit s : List Char} (h : lit.isPrefixOf s = true) :
    lit.length ≤ s.length := by
  induction lit generalizing s with
  | nil => simp
  | cons a as ih =>
    cases s with
    | nil => simp [List.isPrefixOf] at h
    | cons b bs =>
      simp only [List.isPrefixOf_cons₂, Bool.and_eq_true] at h
      simpa using ih h.2

theorem take_eq_of_isPrefixOf {lit s : List Char} (h : lit.isPrefixOf s = true) :
    s.take lit.length = lit := by
  induction lit generalizing s with
  | nil => simp
  | cons a as ih =>
    cases s with
    | nil => simp [List.isPrefixOf] at h
    | cons b bs =>
      simp only [List.isPrefixOf_cons₂, Bool.and_eq_true, beq_iff_eq] at h
      simp [h.1, ih h.2]

theorem isPrefixOf_append_elem {lit : List Char} {x : Char} (hx : ∀ c ∈ lit, c ≠ x) :
    ∀ (s r : List Char), lit.isPrefixOf (s ++ x :: r) = lit.isPrefixOf s := by
  induction lit with
  | nil => intro s r; simp
  | cons a as ih =>
    intro s r
    cases s with
    | nil =>
      have hne : (a == x) = false := by
        simpa using hx a (List.mem_cons_self a as)
      simp [List.isPrefixOf_cons₂, hne, List.isPrefixOf]
    | cons b bs =>
      simp only [List.cons_append, List.isPrefixOf_cons₂]
      rw [ih (fun c hc => hx c (List.mem_cons_of_mem a hc)) bs r]

theorem litAt_append {lit s r : List Char} {x : Char} {q : Nat}
    (hx : ∀ c ∈ lit, c ≠ x) (hq : q ≤ s.length) :
    litAt lit (s ++ x :: r) q = litAt lit s q := by
  unfold litAt
  rw [List.drop_append_eq_append_drop, Nat.sub_eq_zero_of_le hq, List.drop_zero]
  exact isPrefixOf_append_elem hx (s.drop q) r

theorem findQ_append {lit s r : List Char} {x : Char}
    (hx : ∀ c ∈ lit, c ≠ x) :
    ∀ n, n ≤ s.length → findQ lit (s ++ x :: r) n = findQ lit s n := by
  intro n
  induction n with
  | zero => intro h; simp [findQ, litAt_append hx (Nat.zero_le _)]
  | succ n ih =>
    intro h
    simp only [findQ]
    rw [litAt_append hx h, ih (Nat.le_of_succ_le h)]

theorem findQ_some_spec {lit after : List Char} :
    ∀ {n q : Nat}, findQ lit after n = some q → q ≤ n ∧ litAt lit after q = true := by
  intro n
  induction n with
  | zero =>
    intro q h
    simp only [findQ] at h
    split at h
    · cases h; exact ⟨Nat.le_refl 0, by assumption⟩
    · cases h
  | succ n ih =>
    intro q h
    simp only [findQ] at h
    split at h
    · cases h; exact ⟨Nat.le_refl _, by assumption⟩
    · obtain ⟨h1, h2⟩ := ih h
      exact ⟨Nat.le_succ_of_le h1, h2⟩

theorem tryA_some_spec {lit rest6 : List Char} :
    ∀ {n a q : Nat}, tryA lit rest6 n = some (a, q) →
      1 ≤ a ∧ a ≤ n ∧ litAt lit (rest6.drop a) q = true ∧
        q + lit.length ≤ (rest6.drop a).length := by
  intro n
  induction n with
  | zero => intro a q h; cases h
  | succ n ih =>
    intro a q h
    simp only [tryA] at h
    cases hq : findQ lit (rest6.drop (n + 1)) (runLen jsDot (rest6.drop (n + 1))) with
    | some q0 =>
      rw [hq] at h
      simp only [Option.some.injEq, Prod.mk.injEq] at h
      obtain ⟨rfl, rfl⟩ := h
      obtain ⟨hle, hlit⟩ := findQ_some_spec hq
      have hlen : lit.length ≤ ((rest6.drop (n + 1)).drop q0).length :=
        isPrefixOf_le_length hlit
      refine ⟨Nat.succ_le_succ (Nat.zero_le n), Nat.le_refl _, hlit, ?_⟩
      have hrun := runLen_le_length jsDot (rest6.drop (n + 1))
      simp only [List.length_drop] at hlen hrun ⊢
      omega
    | none =>
      rw [hq] at h
      obtain ⟨h1, h2, h3, h4⟩ := ih h
      exact ⟨h1, Nat.le_succ_of_le h2, h3, h4⟩

theorem tryA_append {lit t6 r : List Char}
    (hlit : ∀ c ∈ lit, c ≠ '\n') (ht : ∀ c ∈ t6, jsLineTerm c = false) :
    ∀ n, n ≤ t6.length → tryA lit (t6 ++ '\n' :: r) n = tryA lit t6 n := by
  intro n
  induction n with
  | zero => intro _; rfl
  | succ a ih =>
    intro h
    have hdrop : (t6 ++ '\n' :: r).drop (a + 1) = t6.drop (a + 1) ++ '\n' :: r := by
      rw [List.drop_append_eq_append_drop, Nat.sub_eq_zero_of_le h, List.drop_zero]
    have hall : ∀ c ∈ t6.drop (a + 1), jsDot c = true := by
      intro c hc
      simp [jsDot, ht c (List.mem_of_mem_drop hc)]
    have hnl : jsDot '\n' = false := by decide
    have hr1 : runLen jsDot (t6.drop (a + 1) ++ '\n' :: r) = (t6.drop (a + 1)).length :=
      runLen_all_append r hall hnl
    have hr2 : runLen jsDot (t6.drop (a + 1)) = (t6.drop (a + 1)).length :=
      runLen_all hall
    simp only [tryA, hdrop, hr1, hr2]
    rw [findQ_append hlit _ (Nat.le_refl _)]
    split
    · rfl
    · exact ih (Nat.le_of_succ_le h)

/-! ### The pattern attempt is confined to one line -/

theorem jsLineTerm_true_cases {c : Char} (h : jsLineTerm c = true) :
    c = '\n' ∨ c = '\r' ∨ c = Char.ofNat 0x2028 ∨ c = Char.ofNat 0x2029 := by
  simp only [jsLineTerm, Bool.or_eq_true, decide_eq_true_eq] at h
  tauto

theorem no_lineTerm_ne_nl {l : List Char} (h : ∀ c ∈ l, jsLineTerm c = false) :
    ∀ c ∈ l, c ≠ '\n' := by
  intro c hc he
  subst he
  have := h '\n' hc
  simp [jsLineTerm] at this

theorem no_lineTerm_all_dot {l : List Char} (h : ∀ c ∈ l, jsLineTerm c = false) :
    ∀ c ∈ l, jsDot c = true := by
  intro c hc
  simp [jsDot, h c hc]

theorem imageLit_ne_nl : ∀ c ∈ imageLit, c ≠ '\n' := by decide

theorem tryMatch_append {idc pre r : List Char}
    (hpre : ∀ c ∈ pre, jsLineTerm c = false)
    (hok : imageLit.isPrefixOf pre = true → ∃ c ∈ pre.drop 6, jsWs c = false)
    (hidc : ∀ c ∈ idc, c ≠ '\n') :
    tryMatch idc (pre ++ '\n' :: r) = tryMatch idc pre := by
  unfold tryMatch
  rw [isPrefixOf_append_elem imageLit_ne_nl pre r]
  by_cases himg : imageLit.isPrefixOf pre = true
  case neg =>
    simp only [Bool.not_eq_true] at himg
    simp [himg]
  case pos =>
    simp only [himg, if_true]
    have h6 : 6 ≤ pre.length := by
      have := isPrefixOf_le_length himg
      simpa [imageLit] using this
    have hdrop6 : (pre ++ '\n' :: r).drop 6 = pre.drop 6 ++ '\n' :: r := by
      rw [List.drop_append_eq_append_drop, Nat.sub_eq_zero_of_le h6, List.drop_zero]
    rw [hdrop6]
    have hws : runLen jsWs (pre.drop 6 ++ '\n' :: r) = runLen jsWs (pre.drop 6) :=
      runLen_append_stop _ (hok himg)
    rw [hws]
    have hlitne : ∀ c ∈ idc ++ [':'], c ≠ '\n' := by
      intro c hc
      rcases List.mem_append.mp hc with hc | hc
      · exact hidc c hc
      · simp only [List.mem_singleton] at hc; subst hc; decide
    have hpredrop : ∀ c ∈ pre.drop 6, jsLineTerm c = false :=
      fun c hc => hpre c (List.mem_of_mem_drop hc)
    have hrle : runLen jsWs (pre.drop 6) ≤ (pre.drop 6).length := runLen_le_length _ _
    rw [tryA_append hlitne hpredrop _ hrle]
    cases hta : tryA (idc ++ [':']) (pre.drop 6) (runLen jsWs (pre.drop 6)) with
    | none => rfl
    | some aq =>
      obtain ⟨a, q⟩ := aq
      obtain ⟨ha1, _, _, hbound⟩ := tryA_some_spec hta
      simp only [List.length_drop, List.length_append] at hbound
      have hg1 : 6 + a + q + (idc.length + 1) ≤ pre.length := by
        simp only [List.length_append, List.length_singleton] at hbound
        omega
      have hdropg1 : (pre ++ '\n' :: r).drop (6 + a + q + (idc.length + 1)) =
          pre.drop (6 + a + q + (idc.length + 1)) ++ '\n' :: r := by
        rw [List.drop_append_eq_append_drop, Nat.sub_eq_zero_of_le hg1, List.drop_zero]
      have hdotall : ∀ c ∈ pre.drop (6 + a + q + (idc.length + 1)), jsDot c = true :=
        no_lineTerm_all_dot fun c hc => hpre c (List.mem_of_mem_drop hc)
      have hg2 : runLen jsDot (pre.drop (6 + a + q + (idc.length + 1)) ++ '\n' :: r) =
          runLen jsDot (pre.drop (6 + a + q + (idc.length + 1))) := by
        rw [runLen_all_append r hdotall (by decide), runLen_all hdotall]
      simp only [hdropg1, hg2]

theorem tryMatch_some_spec {idc pre : List Char} {g1 len : Nat}
    (hpre : ∀ c ∈ pre, jsLineTerm c = false)
    (h : tryMatch idc pre = some (g1, len)) :
    idc.length + 1 ≤ g1 ∧ g1 ≤ pre.length ∧ len = pre.length ∧
      pre.take g1 = pre.take (g1 - (idc.length + 1)) ++ (idc ++ [':']) := by
  unfold tryMatch at h
  by_cases himg : imageLit.isPrefixOf pre = true
  case neg =>
    simp only [Bool.not_eq_true] at himg
    simp [himg] at h
  case pos =>
    simp only [himg, if_true] at h
    have h6 : 6 ≤ pre.length := by
      have := isPrefixOf_le_length himg
      simpa [imageLit] using this
    cases hta : tryA (idc ++ [':']) (pre.drop 6) (runLen jsWs (pre.drop 6)) with
    | none => rw [hta] at h; cases h
    | some aq =>
      obtain ⟨a, q⟩ := aq
      rw [hta] at h
      simp only [Option.some.injEq, Prod.mk.injEq] at h
      obtain ⟨rfl, rfl⟩ := h
      obtain ⟨ha1, _, hlit, hbound⟩ := tryA_some_spec hta
      simp only [List.length_drop, List.length_append, List.length_singleton] at hbound
      have hg1le : 6 + a + q + (idc.length + 1) ≤ pre.length := by omega
      have hdotall : ∀ c ∈ pre.drop (6 + a + q + (idc.length + 1)), jsDot c = true :=
        no_lineTerm_all_dot fun c hc => hpre c (List.mem_of_mem_drop hc)
      refine ⟨by omega, hg1le, ?_, ?_⟩
      · rw [runLen_all hdotall]
        simp only [List.length_drop]
        omega
      · unfold litAt at hlit
        rw [List.drop_drop, List.drop_drop] at hlit
        have htk : pre.take (6 + a + q + (idc.length + 1)) =
            pre.take (6 + a + q) ++ (pre.drop (6 + a + q)).take (idc.length + 1) := by
          rw [← List.take_add]
        have hlit2 : (pre.drop (6 + a + q)).take (idc ++ [':']).length = idc ++ [':'] := by
          apply take_eq_of_isPrefixOf
          have heq : 6 + a + q = 6 + (a + q) := by omega
          rw [heq]
          exact hlit
        simp only [List.length_append, List.length_singleton] at hlit2
        have hsub : 6 + a + q + (idc.length + 1) - (idc.length + 1) = 6 + a + q := by omega
        rw [hsub, htk, hlit2]

/-! ### Structure of a per-line patch -/

theorem lineMatchAt_spec {idc : List Char} :
    ∀ {line : List Char} {i g1 : Nat}, lineMatchAt idc line = some (i, g1) →
      i ≤ line.length ∧ ∃ len, tryMatch idc (line.drop i) = some (g1, len) := by
  intro line
  induction line with
  | nil => intro i g1 h; cases h
  | cons c cs ih =>
    intro i g1 h
    simp only [lineMatchAt] at h
    cases htm : tryMatch idc (c :: cs) with
    | some p =>
      obtain ⟨g, len⟩ := p
      rw [htm] at h
      simp only [Option.some.injEq, Prod.mk.injEq] at h
      obtain ⟨rfl, rfl⟩ := h
      exact ⟨Nat.zero_le _, len, htm⟩
    | none =>
      rw [htm] at h
      cases hlm : lineMatchAt idc cs with
      | some p =>
        obtain ⟨i0, g0⟩ := p
        rw [hlm] at h
        simp only [Option.some.injEq, Prod.mk.injEq] at h
        obtain ⟨rfl, rfl⟩ := h
        obtain ⟨hle, len, htm2⟩ := ih hlm
        exact ⟨Nat.succ_le_succ hle, len, htm2⟩
      | none => rw [hlm] at h; cases h

theorem patchLine_match_structure {idc tag line : List Char} {i g1 : Nat}
    (hline : ∀ c ∈ line, jsLineTerm c = false)
    (h : lineMatchAt idc line = some (i, g1)) :
    ∃ m, m + (idc.length + 1) = i + g1 ∧ i + g1 ≤ line.length ∧
      line.take (m + (idc.length + 1)) = line.take m ++ (idc ++ [':']) ∧
      patchLine idc tag line = line.take m ++ (idc ++ [':']) ++ tag := by
  obtain ⟨hile, len, htm⟩ := lineMatchAt_spec h
  have hdropline : ∀ c ∈ line.drop i, jsLineTerm c = false :=
    fun c hc => hline c (List.mem_of_mem_drop hc)
  obtain ⟨hg1ge, hg1le, _, htake⟩ := tryMatch_some_spec hdropline htm
  simp only [List.length_drop] at hg1le
  have hpl : patchLine idc tag line = line.take (i + g1) ++ tag := by
    unfold patchLine
    simp only [h]
  have h1 : line.take (i + g1) = line.take i ++ (line.drop i).take g1 := by
    rw [← List.take_add]
  have h2 : line.take (i + (g1 - (idc.length + 1))) =
      line.take i ++ (line.drop i).take (g1 - (idc.length + 1)) := by
    rw [← List.take_add]
  have htk : line.take (i + (g1 - (idc.length + 1)) + (idc.length + 1)) =
      line.take (i + (g1 - (idc.length + 1))) ++ (idc ++ [':']) := by
    have hms : i + (g1 - (idc.length + 1)) + (idc.length + 1) = i + g1 := by omega
    rw [hms, h1, htake, h2, List.append_assoc]
  refine ⟨i + (g1 - (idc.length + 1)), by omega, by omega, htk, ?_⟩
  rw [hpl, h1, htake, h2]
  simp [List.append_assoc]

theorem patchLine_cons_no_match {idc tag : List Char} {c : Char} {cs : List Char}
    (h : tryMatch idc (c :: cs) = none) :
    patchLine idc tag (c :: cs) = c :: patchLine idc tag cs := by
  unfold patchLine
  simp only [lineMatchAt, h]
  cases hlm : lineMatchAt idc cs with
  | some p =>
    obtain ⟨i, g1⟩ := p
    have : i + 1 + g1 = (i + g1) + 1 := by omega
    simp [this]
  | none => rfl

theorem patchLine_nil (idc tag : List Char) : patchLine idc tag [] = [] := rfl

/-! ### The scan processed line by line -/

theorem scanSkip_skip_all (idc tag : List Char) :
    ∀ (l r : List Char), scanSkip idc tag l.length (l ++ r) = scanSkip idc tag 0 r := by
  intro l
  induction l with
  | nil => intro r; rfl
  | cons c cs ih =>
    intro r
    simp only [List.length_cons, List.cons_append, scanSkip]
    exact ih r

theorem scanSkip_big_skip (idc tag : List Char) :
    ∀ (l : List Char) (s : Nat), l.length ≤ s → scanSkip idc tag s l = [] := by
  intro l
  induction l with
  | nil => intro s _; cases s <;> rfl
  | cons c cs ih =>
    intro s hs
    cases s with
    | zero => simp at hs
    | succ s' =>
      simp only [scanSkip]
      exact ih s' (by simpa using hs)

theorem scanSkip_cons_some {idc tag : List Char} {c : Char} {cs : List Char} {g1 len : Nat}
    (h : tryMatch idc (c :: cs) = some (g1, len)) :
    scanSkip idc tag 0 (c :: cs) = (c :: cs).take g1 ++ tag ++ scanSkip idc tag (len - 1) cs := by
  simp only [scanSkip, h]

theorem scanSkip_cons_none {idc tag : List Char} {c : Char} {cs : List Char}
    (h : tryMatch idc (c :: cs) = none) :
    scanSkip idc tag 0 (c :: cs) = c :: scanSkip idc tag 0 cs := by
  simp only [scanSkip, h]

theorem tryMatch_nl_cons (idc : List Char) (rest : List Char) :
    tryMatch idc ('\n' :: rest) = none := by
  unfold tryMatch
  have : imageLit.isPrefixOf ('\n' :: rest) = false := by
    simp [imageLit, List.isPrefixOf_cons₂]
  simp [this]

theorem scanSkip_line (idc tag : List Char)
    (hidc : ∀ c ∈ idc, c ≠ '\n') :
    ∀ (pre rest : List Char),
      (∀ c ∈ pre, jsLineTerm c = false) →
      (∀ i, imageLit.isPrefixOf (pre.drop i) = true →
        ∃ c ∈ pre.drop (i + 6), jsWs c = false) →
      scanSkip idc tag 0 (pre ++ '\n' :: rest) =
        patchLine idc tag pre ++ '\n' :: scanSkip idc tag 0 rest := by
  intro pre
  induction pre with
  | nil =>
    intro rest _ _
    simp only [List.nil_append, patchLine_nil]
    simp [scanSkip, tryMatch_nl_cons]
  | cons c cs ih =>
    intro rest hpre hok
    have hEq : tryMatch idc ((c :: cs) ++ '\n' :: rest) = tryMatch idc (c :: cs) :=
      tryMatch_append hpre (hok 0) hidc
    cases htm : tryMatch idc (c :: cs) with
    | some p =>
      obtain ⟨g1, len⟩ := p
      obtain ⟨_, hg1le, hlen, _⟩ := tryMatch_some_spec hpre htm
      simp only [List.length_cons] at hg1le hlen
      have hEq2 : tryMatch idc (c :: (cs ++ '\n' :: rest)) = some (g1, len) := by
        rw [← List.cons_append, hEq, htm]
      have htail : scanSkip idc tag (len - 1) (cs ++ '\n' :: rest) =
          '\n' :: scanSkip idc tag 0 rest := by
        have hlen1 : len - 1 = cs.length := by omega
        rw [hlen1, scanSkip_skip_all]
        rw [scanSkip_cons_none (tryMatch_nl_cons idc rest)]
      have htg1 : (c :: (cs ++ '\n' :: rest)).take g1 = (c :: cs).take g1 := by
        rw [← List.cons_append, List.take_append_eq_append_take,
            Nat.sub_eq_zero_of_le (by simpa using hg1le)]
        simp
      have hpl : patchLine idc tag (c :: cs) = (c :: cs).take g1 ++ tag := by
        unfold patchLine
        simp only [lineMatchAt, htm, Nat.zero_add]
      rw [List.cons_append, scanSkip_cons_some hEq2, htail, htg1, hpl]
    | none =>
      have hEq2 : tryMatch idc (c :: (cs ++ '\n' :: rest)) = none := by
        rw [← List.cons_append, hEq, htm]
      have hok2 : ∀ i, imageLit.isPrefixOf (cs.drop i) = true →
          ∃ d ∈ cs.drop (i + 6), jsWs d = false := by
        intro i hi
        have := hok (i + 1) (by simpa using hi)
        simpa using this
      rw [List.cons_append, scanSkip_cons_none hEq2]
      rw [ih rest (fun d hd => hpre d (List.mem_cons_of_mem c hd)) hok2]
      rw [patchLine_cons_no_match htm]
      rfl

theorem scanSkip_last (idc tag : List Char) :
    ∀ (pre : List Char),
      (∀ c ∈ pre, jsLineTerm c = false) →
      scanSkip idc tag 0 pre = patchLine idc tag pre := by
  intro pre
  induction pre with
  | nil => intro _; rfl
  | cons c cs ih =>
    intro hpre
    cases htm : tryMatch idc (c :: cs) with
    | some p =>
      obtain ⟨g1, len⟩ := p
      obtain ⟨_, hg1le, hlen, _⟩ := tryMatch_some_spec hpre htm
      simp only [List.length_cons] at hg1le hlen
      have htail : scanSkip idc tag (len - 1) cs = [] :=
        scanSkip_big_skip idc tag cs (len - 1) (by omega)
      have hpl : patchLine idc tag (c :: cs) = (c :: cs).take g1 ++ tag := by
        unfold patchLine
        simp only [lineMatchAt, htm, Nat.zero_add]
      rw [scanSkip_cons_some htm, htail, hpl]
      simp
    | none =>
      rw [scanSkip_cons_none htm]
      rw [ih (fun d hd => hpre d (List.mem_cons_of_mem c hd))]
      rw [patchLine_cons_no_match htm]

/-! ### Splitting and joining on line separators -/

theorem splitOnCh_no_sep {sep : Char} {l : List Char} (h : ∀ x ∈ l, x ≠ sep) :
    splitOnCh sep l = [l] := by
  induction l with
  | nil => rfl
  | cons c cs ih =>
    have hc : c ≠ sep := h c (List.mem_cons_self c cs)
    simp only [splitOnCh, if_neg hc, ih fun x hx => h x (List.mem_cons_of_mem c hx)]

theorem splitOnCh_sep_append {sep : Char} {pre : List Char} (rest : List Char)
    (h : ∀ x ∈ pre, x ≠ sep) :
    splitOnCh sep (pre ++ sep :: rest) = pre :: splitOnCh sep rest := by
  induction pre with
  | nil => simp [splitOnCh]
  | cons c cs ih =>
    have hc : c ≠ sep := h c (List.mem_cons_self c cs)
    simp only [List.cons_append, splitOnCh, if_neg hc, List.append_eq,
      ih fun x hx => h x (List.mem_cons_of_mem c hx)]

theorem splitOnCh_ne_nil {sep : Char} : ∀ l : List Char, splitOnCh sep l ≠ [] := by
  intro l
  cases l with
  | nil => simp [splitOnCh]
  | cons c cs =>
    simp only [splitOnCh]
    split
    · simp
    · cases h : splitOnCh sep cs <;> simp

theorem joinCh_cons {sep : Char} {ls : List (List Char)} (l : List Char) (h : ls ≠ []) :
    joinCh sep (l :: ls) = l ++ sep :: joinCh sep ls := by
  cases ls with
  | nil => cases h rfl
  | cons l2 ls2 => rfl

theorem splitOnCh_joinCh {sep : Char} :
    ∀ {ls : List (List Char)}, ls ≠ [] → (∀ l ∈ ls, ∀ x ∈ l, x ≠ sep) →
      splitOnCh sep (joinCh sep ls) = ls
  | [], h, _ => absurd rfl h
  | [l], _, hall => by
    show splitOnCh sep (joinCh sep [l]) = [l]
    have : joinCh sep [l] = l := rfl
    rw [this]
    exact splitOnCh_no_sep (hall l (List.mem_cons_self l []))
  | l :: l2 :: ls, _, hall => by
    rw [joinCh_cons l (by simp)]
    rw [splitOnCh_sep_append _ (hall l (List.mem_cons_self l (l2 :: ls)))]
    rw [splitOnCh_joinCh (by simp) (fun m hm => hall m (List.mem_cons_of_mem l hm))]

theorem exists_nl_split : ∀ (l : List Char), '\n' ∈ l →
    ∃ pre rest, l = pre ++ '\n' :: rest ∧ ∀ x ∈ pre, x ≠ '\n' := by
  intro l
  induction l with
  | nil => intro h; cases h
  | cons c cs ih =>
    intro h
    by_cases hc : c = '\n'
    · subst hc
      exact ⟨[], cs, rfl, by simp⟩
    · have hmem : '\n' ∈ cs := by
        rcases List.mem_cons.mp h with h1 | h1
        · exact absurd h1.symm hc
        · exact h1
      obtain ⟨pre, rest, heq, hpre⟩ := ih hmem
      refine ⟨c :: pre, rest, by rw [heq]; rfl, ?_⟩
      intro x hx
      rcases List.mem_cons.mp hx with rfl | hx
      · exact hc
      · exact hpre x hx

/-! ### The whole substitution as a map over lines -/

theorem replaceScan_lines (idc tag : List Char) (hidc : ∀ c ∈ idc, c ≠ '\n') :
    ∀ (content : List Char), (∀ line ∈ splitOnNl content, LineOk line) →
      replaceScan idc tag content = joinNl ((splitOnNl content).map (patchLine idc tag))
  | content, h => by
    by_cases hmem : '\n' ∈ content
    · obtain ⟨pre, rest, rfl, hpre⟩ := exists_nl_split content hmem
      have hsplit : splitOnNl (pre ++ '\n' :: rest) = pre :: splitOnNl rest :=
        splitOnCh_sep_append rest hpre
      have hlok : LineOk pre := by
        apply h pre
        rw [show splitOnNl (pre ++ '\n' :: rest) = pre :: splitOnNl rest from hsplit]
        exact List.mem_cons_self pre (splitOnNl rest)
      have hrest : ∀ line ∈ splitOnNl rest, LineOk line := by
        intro line hl
        apply h line
        rw [show splitOnNl (pre ++ '\n' :: rest) = pre :: splitOnNl rest from hsplit]
        exact List.mem_cons_of_mem pre hl
      have hrec := replaceScan_lines idc tag hidc rest hrest
      unfold replaceScan at hrec ⊢
      rw [scanSkip_line idc tag hidc pre rest hlok.1 hlok.2, hrec, hsplit]
      simp only [List.map_cons]
      have hj : joinNl (patchLine idc tag pre :: (splitOnNl rest).map (patchLine idc tag)) =
          patchLine idc tag pre ++ '\n' :: joinNl ((splitOnNl rest).map (patchLine idc tag)) := by
        unfold joinNl
        exact joinCh_cons _
          (by simp only [ne_eq, List.map_eq_nil_iff]; exact splitOnCh_ne_nil rest)
      rw [hj]
    · have hsingle : splitOnNl content = [content] :=
        splitOnCh_no_sep fun x hx hx2 => hmem (hx2 ▸ hx)
      have hlok : LineOk content := by
        apply h content
        rw [hsingle]
        exact List.mem_cons_self content []
      unfold replaceScan
      rw [scanSkip_last idc tag content hlok.1, hsingle]
      rfl
termination_by content => content.length
decreasing_by
  subst_vars
  simp [List.length_append]
  omega

theorem patchLine_no_nl {idc tag line : List Char}
    (hl : ∀ c ∈ line, c ≠ '\n') (ht : ∀ c ∈ tag, c ≠ '\n') :
    ∀ c ∈ patchLine idc tag line, c ≠ '\n' := by
  unfold patchLine
  cases hlm : lineMatchAt idc line with
  | none => exact hl
  | some p =>
    obtain ⟨i, g1⟩ := p
    intro c hc
    rcases List.mem_append.mp hc with hc | hc
    · exact hl c (List.take_subset _ _ hc)
    · exact ht c hc

theorem lines_of_replaceScan (idc tag content : List Char)
    (hidc : ∀ c ∈ idc, c ≠ '\n') (htag : ∀ c ∈ tag, c ≠ '\n')
    (h : ∀ line ∈ splitOnNl content, LineOk line) :
    splitOnNl (replaceScan idc tag content) = (splitOnNl content).map (patchLine idc tag) := by
  rw [replaceScan_lines idc tag hidc content h]
  apply splitOnCh_joinCh
  · simp only [ne_eq, List.map_eq_nil_iff]
    exact splitOnCh_ne_nil content
  · intro l hl x hx
    obtain ⟨line, hline, rfl⟩ := List.mem_map.mp hl
    exact patchLine_no_nl (no_lineTerm_ne_nl (h line hline).1) htag x hx

/-! ### Character-class facts for plain identifiers and tags -/

theorem plainChar_no_lineTerm {c : Char} (h : plainChar c = true) : jsLineTerm c = false := by
  cases hh : jsLineTerm c
  · rfl
  · rcases jsLineTerm_true_cases hh with rfl | rfl | rfl | rfl
    · exact absurd h (by decide)
    · exact absurd h (by decide)
    · exact absurd h (by decide)
    · exact absurd h (by decide)

theorem plainStr_no_lineTerm {l : List Char} (h : plainStr l) :
    ∀ c ∈ l, jsLineTerm c = false :=
  fun c hc => plainChar_no_lineTerm (h c hc)

theorem plainStr_ne_nl {l : List Char} (h : plainStr l) : ∀ c ∈ l, c ≠ '\n' :=
  no_lineTerm_ne_nl (plainStr_no_lineTerm h)

theorem joinCh_splitOnCh (sep : Char) : ∀ l : List Char, joinCh sep (splitOnCh sep l) = l := by
  intro l
  induction l with
  | nil => rfl
  | cons c cs ih =>
    by_cases hc : c = sep
    · subst hc
      have h1 : splitOnCh c (c :: cs) = [] :: splitOnCh c cs := by
        simp [splitOnCh]
      rw [h1, joinCh_cons [] (splitOnCh_ne_nil cs), List.nil_append, ih]
    · cases hs : splitOnCh sep cs with
      | nil => exact absurd hs (splitOnCh_ne_nil cs)
      | cons l0 ls0 =>
        have h1 : splitOnCh sep (c :: cs) = (c :: l0) :: ls0 := by
          simp [splitOnCh, hc, hs]
        rw [h1]
        cases ls0 with
        | nil =>
          have h3 : joinCh sep [l0] = l0 := rfl
          rw [hs, h3] at ih
          show c :: l0 = c :: cs
          rw [ih]
        | cons l1 ls1 =>
          rw [joinCh_cons (c :: l0) (by simp), List.cons_append]
          rw [hs, joinCh_cons l0 (by simp)] at ih
          rw [ih]

theorem patchLine_of_no_match {idc tag line : List Char}
    (h : lineMatches idc line = false) : patchLine idc tag line = line := by
  unfold lineMatches at h
  unfold patchLine
  cases hlm : lineMatchAt idc line with
  | none => rfl
  | some p => rw [hlm] at h; simp at h

/-- A bounded form of LineOk sufficient for concrete inputs: offsets past
the end of the line cannot start an occurrence of image:. -/
theorem lineOk_of_bounded {line : List Char}
    (h1 : ∀ c ∈ line, jsLineTerm c = false)
    (h2 : ∀ i < line.length, imageLit.isPrefixOf (line.drop i) = true →
      ∃ c ∈ line.drop (i + 6), jsWs c = false) :
    LineOk line := by
  refine ⟨h1, fun i hi => ?_⟩
  by_cases hlt : i < line.length
  · exact h2 i hlt hi
  · rw [List.drop_eq_nil_of_le (Nat.le_of_not_lt hlt)] at hi
    simp [imageLit, List.isPrefixOf] at hi

/-! ### Claim C4 -/

/-- C4: For file contents whose line separator is the newline, a plain
identifier and tag, and where every occurrence of image: is followed on
its own line by a character that is not white space (amended: without
this condition the white-space class of the pattern crosses the line
break and edits a line that does not match): every line that does not
match the pattern image:, white space, anything, identifier colon is
byte-identical in the output; every matching line becomes its own
unchanged prefix through the identifier colon followed by the new tag;
and if no line matches, the whole content is unchanged. -/
theorem updateYaml_patches_lines
    (content identifier newTag : String)
    (hid : plainStr identifier.toList)
    (htag : plainStr newTag.toList)
    (hlines : ∀ line ∈ splitOnNl content.toList, LineOk line) :
    ((splitOnNl (updateYaml content identifier newTag).toList).length =
      (splitOnNl content.toList).length) ∧
    (∀ (k : Nat) (line : List Char), (splitOnNl content.toList)[k]? = some line →
      lineMatches identifier.toList line = false →
      (splitOnNl (updateYaml content identifier newTag).toList)[k]? = some line) ∧
    (∀ (k : Nat) (line : List Char), (splitOnNl content.toList)[k]? = some line →
      lineMatches identifier.toList line = true →
      ∃ m, m + (identifier.toList.length + 1) ≤ line.length ∧
        line.take (m + (identifier.toList.length + 1)) =
          line.take m ++ (identifier.toList ++ [':']) ∧
        (splitOnNl (updateYaml content identifier newTag).toList)[k]? =
          some (line.take m ++ (identifier.toList ++ [':']) ++ newTag.toList)) ∧
    ((∀ line ∈ splitOnNl content.toList, lineMatches identifier.toList line = false) →
      updateYaml content identifier newTag = content) := by
  have hidnl := plainStr_ne_nl hid
  have htagnl := plainStr_ne_nl htag
  have hout : (updateYaml content identifier newTag).toList =
      replaceScan identifier.toList newTag.toList content.toList := rfl
  have hmap := lines_of_replaceScan identifier.toList newTag.toList content.toList
    hidnl htagnl hlines
  refine ⟨?_, ?_, ?_, ?_⟩
  · rw [hout, hmap, List.length_map]
  · intro k line hk hnm
    rw [hout, hmap, List.getElem?_map, hk]
    simp only [Option.map_some', Option.some.injEq]
    exact patchLine_of_no_match hnm
  · intro k line hk hm
    have hline : LineOk line := hlines line (List.getElem?_mem hk)
    obtain ⟨i, g1, hlm⟩ : ∃ i g1,
        lineMatchAt identifier.toList line = some (i, g1) := by
      unfold lineMatches at hm
      cases hx : lineMatchAt identifier.toList line with
      | none => rw [hx] at hm; simp at hm
      | some p => obtain ⟨i, g1⟩ := p; exact ⟨i, g1, rfl⟩
    obtain ⟨m, hm1, hm2, hm3, hm4⟩ :=
      patchLine_match_structure hline.1 hlm
    refine ⟨m, by omega, hm3, ?_⟩
    rw [hout, hmap, List.getElem?_map, hk]
    simp only [Option.map_some', Option.some.injEq]
    exact hm4
  · intro hall
    have hmapid : (splitOnNl content.toList).map
        (patchLine identifier.toList newTag.toList) = splitOnNl content.toList := by
      calc (splitOnNl content.toList).map (patchLine identifier.toList newTag.toList)
          = (splitOnNl content.toList).map id :=
            List.map_congr_left fun a ha => patchLine_of_no_match (hall a ha)
        _ = splitOnNl content.toList := List.map_id _
    have hdata : (updateYaml content identifier newTag).toList = content.toList := by
      rw [hout,
        replaceScan_lines identifier.toList newTag.toList hidnl content.toList hlines,
        hmapid]
      exact joinCh_splitOnCh '\n' content.toList
    calc updateYaml content identifier newTag
        = String.mk (updateYaml content identifier newTag).toList := rfl
      _ = String.mk content.toList := by rw [hdata]
      _ = content := rfl

/-- C4 witness: the theorem applied to a one-line file with a matching
line. -/
theorem updateYaml_patches_lines_witness :
    (plainStr "svc".toList ∧ plainStr "2".toList ∧
      (∀ line ∈ splitOnNl "image: a-svc:1".toList, LineOk line)) ∧
    (((splitOnNl (updateYaml "image: a-svc:1" "svc" "2").toList).length =
      (splitOnNl "image: a-svc:1".toList).length) ∧
    (∀ (k : Nat) (line : List Char), (splitOnNl "image: a-svc:1".toList)[k]? = some line →
      lineMatches "svc".toList line = false →
      (splitOnNl (updateYaml "image: a-svc:1" "svc" "2").toList)[k]? = some line) ∧
    (∀ (k : Nat) (line : List Char), (splitOnNl "image: a-svc:1".toList)[k]? = some line →
      lineMatches "svc".toList line = true →
      ∃ m, m + ("svc".toList.length + 1) ≤ line.length ∧
        line.take (m + ("svc".toList.length + 1)) =
          line.take m ++ ("svc".toList ++ [':']) ∧
        (splitOnNl (updateYaml "image: a-svc:1" "svc" "2").toList)[k]? =
          some (line.take m ++ ("svc".toList ++ [':']) ++ "2".toList)) ∧
    ((∀ line ∈ splitOnNl "image: a-svc:1".toList, lineMatches "svc".toList line = false) →
      updateYaml "image: a-svc:1" "svc" "2" = "image: a-svc:1")) := by
  have hlines : ∀ line ∈ splitOnNl "image: a-svc:1".toList, LineOk line := by
    intro line hl
    rw [(by decide :
      splitOnNl "image: a-svc:1".toList = ["image: a-svc:1".toList])] at hl
    rcases List.mem_singleton.mp hl with rfl
    exact lineOk_of_bounded (by decide) (by decide)
  exact ⟨⟨by decide, by decide, hlines⟩,
    updateYaml_patches_lines "image: a-svc:1" "svc" "2" (by decide) (by decide) hlines⟩

/-- C4 counterexample: with the line image: followed by nothing, the
white-space class of the pattern crosses the line break, and the second
line below is edited by updateYaml even though it does not match the
pattern, so the claim as stated fails. -/
theorem updateYaml_cross_line_edit :
    updateYaml "image:\nx-id:old" "id" "new" = "image:\nx-id:new" ∧
    splitOnNl ("image:\nx-id:old".toList) = ["image:".toList, "x-id:old".toList] ∧
    splitOnNl ((updateYaml "image:\nx-id:old" "id" "new").toList) =
      ["image:".toList, "x-id:new".toList] ∧
    lineMatches "id".toList "x-id:old".toList = false ∧
    ("x-id:new".toList ≠ "x-id:old".toList) := by decide

/-! ### Claim C6 -/

/-- C6: amended: because the substitution is compiled with the global
flag, every matching line, not only the first, is rewritten to the new
tag; later matching lines are not left unchanged.  Stated for files with
at least two matching lines, newline separators, plain identifier and
tag, and no occurrence of image: followed only by white space on its
line. -/
theorem updateYaml_rewrites_every_match
    (content identifier newTag : String)
    (hid : plainStr identifier.toList)
    (htag : plainStr newTag.toList)
    (hlines : ∀ line ∈ splitOnNl content.toList, LineOk line)
    (_hmulti : 2 ≤ ((splitOnNl content.toList).filter
      (fun l => lineMatches identifier.toList l)).length) :
    ∀ (k : Nat) (line : List Char), (splitOnNl content.toList)[k]? = some line →
      lineMatches identifier.toList line = true →
      ∃ m, (splitOnNl (updateYaml content identifier newTag).toList)[k]? =
        some (line.take m ++ (identifier.toList ++ [':']) ++ newTag.toList) := by
  intro k line hk hm
  have hidnl := plainStr_ne_nl hid
  have htagnl := plainStr_ne_nl htag
  have hout : (updateYaml content identifier newTag).toList =
      replaceScan identifier.toList newTag.toList content.toList := rfl
  have hmap := lines_of_replaceScan identifier.toList newTag.toList content.toList
    hidnl htagnl hlines
  have hline : LineOk line := hlines line (List.getElem?_mem hk)
  obtain ⟨i, g1, hlm⟩ : ∃ i g1,
      lineMatchAt identifier.toList line = some (i, g1) := by
    unfold lineMatches at hm
    cases hx : lineMatchAt identifier.toList line with
    | none => rw [hx] at hm; simp at hm
    | some p => obtain ⟨i, g1⟩ := p; exact ⟨i, g1, rfl⟩
  obtain ⟨m, hm1, hm2, hm3, hm4⟩ :=
    patchLine_match_structure hline.1 hlm
  refine ⟨m, ?_⟩
  rw [hout, hmap, List.getElem?_map, hk]
  simp only [Option.map_some', Option.some.injEq]
  exact hm4

/-- C6 witness: a two-line file in which both lines match. -/
theorem updateYaml_rewrites_every_match_witness :
    (plainStr "svc".toList ∧ plainStr "3".toList ∧
      (∀ line ∈ splitOnNl "image: a-svc:1\nimage: b-svc:2".toList, LineOk line) ∧
      2 ≤ ((splitOnNl "image: a-svc:1\nimage: b-svc:2".toList).filter
        (fun l => lineMatches "svc".toList l)).length) ∧
    (∀ (k : Nat) (line : List Char), (splitOnNl "image: a-svc:1\nimage: b-svc:2".toList)[k]? = some line →
      lineMatches "svc".toList line = true →
      ∃ m, (splitOnNl (updateYaml "image: a-svc:1\nimage: b-svc:2" "svc" "3").toList)[k]? =
        some (line.take m ++ ("svc".toList ++ [':']) ++ "3".toList)) := by
  have hlines : ∀ line ∈ splitOnNl "image: a-svc:1\nimage: b-svc:2".toList, LineOk line := by
    intro line hl
    rw [(by decide : splitOnNl "image: a-svc:1\nimage: b-svc:2".toList =
      ["image: a-svc:1".toList, "image: b-svc:2".toList])] at hl
    rcases List.mem_cons.mp hl with rfl | hl
    · exact lineOk_of_bounded (by decide) (by decide)
    · rcases List.mem_singleton.mp hl with rfl
      exact lineOk_of_bounded (by decide) (by decide)
  exact ⟨⟨by decide, by decide, hlines, by decide⟩,
    updateYaml_rewrites_every_match "image: a-svc:1\nimage: b-svc:2" "svc" "3"
      (by decide) (by decide) hlines (by decide)⟩

/-- C6 counterexample: in a two-line file where both lines match, the
second matching line is rewritten as well, so the claim that only the
first matching line is rewritten and later matching lines are left
unchanged fails. -/
theorem updateYaml_patches_later_matches :
    updateYaml "image: a-id:1\nimage: b-id:2" "id" "new" =
      "image: a-id:new\nimage: b-id:new" ∧
    lineMatches "id".toList "image: b-id:2".toList = true ∧
    splitOnNl ((updateYaml "image: a-id:1\nimage: b-id:2" "id" "new").toList) =
      ["image: a-id:new".toList, "image: b-id:new".toList] ∧
    ("image: b-id:new".toList ≠ "image: b-id:2".toList) := by decide

/-! ### Transport helper lemmas -/

theorem request_first_attempt (auth : Option AuthHeader) (o : CallOracle) :
    ∃ evs, (request auth o).2.2 = ReqEvent.attempt auth :: evs := by
  unfold request
  cases o.first with
  | ok r => exact ⟨[], rfl⟩
  | err st ch =>
    cases hch : challengeHandled (.err st ch) with
    | none => exact ⟨[], by simp [hch]⟩
    | some p =>
      obtain ⟨c, r⟩ := p
      cases o.token with
      | netFail =>
        exact ⟨[ReqEvent.tokenFetch (tokenUrl r c.service c.scope) auth], by simp [hch]⟩
      | noToken =>
        exact ⟨[ReqEvent.tokenFetch (tokenUrl r c.service c.scope) auth], by simp [hch]⟩
      | tok t =>
        cases o.second with
        | ok r2 =>
          exact ⟨[ReqEvent.tokenFetch (tokenUrl r c.service c.scope) auth,
            ReqEvent.retry (some (AuthHeader.bearer t))], by simp [hch]⟩
        | err s2 c2 =>
          exact ⟨[ReqEvent.tokenFetch (tokenUrl r c.service c.scope) auth,
            ReqEvent.retry (some (AuthHeader.bearer t))], by simp [hch]⟩

theorem request_auth_step (auth : Option AuthHeader) (o : CallOracle) :
    (request auth o).2.1 = auth ∨
      ∃ t, (request auth o).2.1 = some (AuthHeader.bearer t) := by
  unfold request
  cases o.first with
  | ok r => left; rfl
  | err st ch =>
    cases hch : challengeHandled (.err st ch) with
    | none => left; simp [hch]
    | some p =>
      obtain ⟨c, r⟩ := p
      cases o.token with
      | netFail => left; simp [hch]
      | noToken => left; simp [hch]
      | tok t =>
        right
        refine ⟨t, ?_⟩
        cases o.second with
        | ok r2 => simp [hch]
        | err s2 c2 => simp [hch]

theorem request_preserves_bearer (auth : Option AuthHeader) (o : CallOracle)
    (h : isBearer auth = true) : isBearer (request auth o).2.1 = true := by
  rcases request_auth_step auth o with he | ⟨t, he⟩
  · rw [he]; exact h
  · rw [he]; rfl

theorem request_events_auth (auth : Option AuthHeader) (o : CallOracle)
    (h : isBearer auth = true) :
    ∀ e ∈ (request auth o).2.2, isBearer (eventAuth e) = true := by
  unfold request
  cases o.first with
  | ok r =>
    intro e he
    rcases List.mem_singleton.mp he with rfl
    exact h
  | err st ch =>
    cases hch : challengeHandled (.err st ch) with
    | none =>
      intro e he
      simp only [hch] at he
      rcases List.mem_singleton.mp he with rfl
      exact h
    | some p =>
      obtain ⟨c, r⟩ := p
      cases o.token with
      | netFail =>
        intro e he
        simp only [hch] at he
        rcases List.mem_cons.mp he with rfl | he
        · exact h
        · rcases List.mem_singleton.mp he with rfl
          exact h
      | noToken =>
        intro e he
        simp only [hch] at he
        rcases List.mem_cons.mp he with rfl | he
        · exact h
        · rcases List.mem_singleton.mp he with rfl
          exact h
      | tok t =>
        cases o.second with
        | ok r2 =>
          intro e he
          simp only [hch] at he
          rcases List.mem_cons.mp he with rfl | he
          · exact h
          · rcases List.mem_cons.mp he with rfl | he
            · exact h
            · rcases List.mem_singleton.mp he with rfl
              rfl
        | err s2 c2 =>
          intro e he
          simp only [hch] at he
          rcases List.mem_cons.mp he with rfl | he
          · exact h
          · rcases List.mem_cons.mp he with rfl | he
            · exact h
            · rcases List.mem_singleton.mp he with rfl
              rfl

theorem runRequests_preserves_bearer (os : List CallOracle) :
    ∀ (auth : Option AuthHeader), isBearer auth = true →
      isBearer (runRequests auth os).1 = true := by
  induction os with
  | nil => intro auth h; exact h
  | cons o os ih =>
    intro auth h
    exact ih (request auth o).2.1 (request_preserves_bearer auth o h)

theorem runRequests_events_bearer (os : List CallOracle) :
    ∀ (auth : Option AuthHeader), isBearer auth = true →
      ∀ e ∈ (runRequests auth os).2, isBearer (eventAuth e) = true := by
  induction os with
  | nil => intro auth _ e he; cases he
  | cons o os ih =>
    intro auth h e he
    simp only [runRequests] at he
    rcases List.mem_append.mp he with he | he
    · exact request_events_auth auth o h e he
    · exact ih (request auth o).2.1 (request_preserves_bearer auth o h) e he

/-! ### Claim C3 -/

/-- C3: On a first response of 401 carrying a bearer challenge with a
realm, and a token endpoint returning a token: the trace of the call is
the original attempt, one token fetch from the realm url, and exactly
one retry carrying the upgraded bearer header; the session header
afterwards is that bearer header; the call result is exactly the outcome
of the retried request, a failing retry included, with no further retry;
and any subsequent call attaches the bearer header on its first
attempt. -/
theorem request_bearer_upgrade_once (auth : Option AuthHeader) (o : CallOracle)
    (c : Challenge) (r t : String)
    (h1 : o.first = .err (some 401) (some c))
    (h2 : c.bearerScheme = true)
    (h3 : c.realm = some r)
    (h4 : o.token = .tok t) :
    (request auth o).2.2 =
      [ReqEvent.attempt auth,
       ReqEvent.tokenFetch (tokenUrl r c.service c.scope) auth,
       ReqEvent.retry (some (AuthHeader.bearer t))] ∧
    (request auth o).2.1 = some (AuthHeader.bearer t) ∧
    (request auth o).1 =
      (match o.second with
       | .ok r2 => .ok r2
       | .err s2 c2 => .error (.http s2 c2)) ∧
    (∀ o2 : CallOracle, ∃ evs,
      (request (some (AuthHeader.bearer t)) o2).2.2 =
        ReqEvent.attempt (some (AuthHeader.bearer t)) :: evs) := by
  have hch : challengeHandled (.err (some 401) (some c)) = some (c, r) := by
    simp [challengeHandled, h2, h3]
  obtain ⟨f, tk, snd⟩ := o
  simp only at h1 h4
  subst h1 h4
  refine ⟨?_, ?_, ?_, fun o2 => request_first_attempt _ o2⟩
  · cases snd with
    | ok r2 => simp [request, hch]
    | err s2 c2 => simp [request, hch]
  · cases snd with
    | ok r2 => simp [request, hch]
    | err s2 c2 => simp [request, hch]
  · cases snd with
    | ok r2 => simp [request, hch]
    | err s2 c2 => simp [request, hch]

/-- C3 witness: a concrete challenged call with a successful retry. -/
theorem request_bearer_upgrade_once_witness :
    ((⟨HttpOutcome.err (some 401) (some ⟨true, some "http://a", "s", "sc"⟩),
        TokenOutcome.tok "T", HttpOutcome.ok ⟨"body"⟩⟩ : CallOracle).first =
      .err (some 401) (some ⟨true, some "http://a", "s", "sc"⟩) ∧
     (⟨true, some "http://a", "s", "sc"⟩ : Challenge).bearerScheme = true ∧
     (⟨true, some "http://a", "s", "sc"⟩ : Challenge).realm = some "http://a" ∧
     (⟨HttpOutcome.err (some 401) (some ⟨true, some "http://a", "s", "sc"⟩),
        TokenOutcome.tok "T", HttpOutcome.ok ⟨"body"⟩⟩ : CallOracle).token =
      TokenOutcome.tok "T") ∧
    ((request (some (AuthHeader.basic "u:p"))
        ⟨HttpOutcome.err (some 401) (some ⟨true, some "http://a", "s", "sc"⟩),
          TokenOutcome.tok "T", HttpOutcome.ok ⟨"body"⟩⟩).2.2 =
      [ReqEvent.attempt (some (AuthHeader.basic "u:p")),
       ReqEvent.tokenFetch (tokenUrl "http://a" "s" "sc") (some (AuthHeader.basic "u:p")),
       ReqEvent.retry (some (AuthHeader.bearer "T"))] ∧
     (request (some (AuthHeader.basic "u:p"))
        ⟨HttpOutcome.err (some 401) (some ⟨true, some "http://a", "s", "sc"⟩),
          TokenOutcome.tok "T", HttpOutcome.ok ⟨"body"⟩⟩).2.1 =
      some (AuthHeader.bearer "T") ∧
     (request (some (AuthHeader.basic "u:p"))
        ⟨HttpOutcome.err (some 401) (some ⟨true, some "http://a", "s", "sc"⟩),
          TokenOutcome.tok "T", HttpOutcome.ok ⟨"body"⟩⟩).1 =
      (match (HttpOutcome.ok ⟨"body"⟩ : HttpOutcome) with
       | .ok r2 => .ok r2
       | .err s2 c2 => .error (.http s2 c2)) ∧
     (∀ o2 : CallOracle, ∃ evs,
       (request (some (AuthHeader.bearer "T")) o2).2.2 =
         ReqEvent.attempt (some (AuthHeader.bearer "T")) :: evs)) :=
  ⟨⟨rfl, rfl, rfl, rfl⟩,
    request_bearer_upgrade_once (some (AuthHeader.basic "u:p"))
      ⟨HttpOutcome.err (some 401) (some ⟨true, some "http://a", "s", "sc"⟩),
        TokenOutcome.tok "T", HttpOutcome.ok ⟨"body"⟩⟩
      ⟨true, some "http://a", "s", "sc"⟩ "http://a" "T" rfl rfl rfl rfl⟩

/-! ### Claim C9 -/

/-- C9: the auth session never reverts: one request call either keeps
the session header or upgrades it to a bearer header; once the header is
bearer it remains bearer through any further sequence of calls, and
every event of every subsequent call, the first attempt included,
carries a bearer header and never a basic one. -/
theorem authSession_monotone :
    (∀ (auth : Option AuthHeader) (o : CallOracle),
      (request auth o).2.1 = auth ∨
        ∃ t, (request auth o).2.1 = some (AuthHeader.bearer t)) ∧
    (∀ (auth : Option AuthHeader) (os : List CallOracle), isBearer auth = true →
      isBearer (runRequests auth os).1 = true) ∧
    (∀ (auth : Option AuthHeader) (os : List CallOracle), isBearer auth = true →
      ∀ e ∈ (runRequests auth os).2, isBearer (eventAuth e) = true) :=
  ⟨request_auth_step,
   fun auth os h => runRequests_preserves_bearer os auth h,
   fun auth os h => runRequests_events_bearer os auth h⟩

/-- C9 witness: a bearer session stays bearer over a concrete call
sequence. -/
theorem authSession_monotone_witness :
    isBearer (some (AuthHeader.bearer "T")) = true ∧
    isBearer (runRequests (some (AuthHeader.bearer "T"))
      [⟨HttpOutcome.ok ⟨"x"⟩, TokenOutcome.netFail, HttpOutcome.ok ⟨"x"⟩⟩]).1 = true :=
  ⟨by decide,
    authSession_monotone.2.1 (some (AuthHeader.bearer "T"))
      [⟨HttpOutcome.ok ⟨"x"⟩, TokenOutcome.netFail, HttpOutcome.ok ⟨"x"⟩⟩] (by decide)⟩

/-! ### Blob pusher helper lemmas -/

theorem pushBlob_ok_pair (hash : List Nat → String) (registryUrl repository : String)
    (bytes : List Nat) (o : BlobOracle) {d : String × Nat}
    (h : (pushBlob hash registryUrl repository bytes o).result = Except.ok d) :
    d = (digestOf hash bytes, bytes.length) := by
  obtain ⟨hd, pst, pt⟩ := o
  cases hd <;> cases pst <;> cases pt <;>
    simp only [pushBlob, Except.ok.injEq] at h <;>
    (first | exact h.symm | exact h | cases h)

theorem pushBlob_head_ok (hash : List Nat → String) (registryUrl repository : String)
    (bytes : List Nat) (o : BlobOracle) (h : o.head = .ok) :
    pushBlob hash registryUrl repository bytes o =
      ⟨Except.ok (digestOf hash bytes, bytes.length),
        [RegReq.headBlob ("/v2/" ++ repository ++ "/blobs/" ++ digestOf hash bytes)],
        false⟩ := by
  obtain ⟨hd, pst, pt⟩ := o
  simp only at h
  subst h
  rfl

theorem pushLayersGo_heads_ok (hash : List Nat → String) (registryUrl repository : String)
    (files : String → Option (List Nat)) (oracles : Nat → BlobOracle)
    (hall : ∀ i, (oracles i).head = .ok) :
    ∀ (fs : List String) (i : Nat),
      ∀ r ∈ (pushLayersGo hash registryUrl repository files oracles i fs).2,
        isUploadReq r = false := by
  intro fs
  induction fs with
  | nil => intro i r hr; cases hr
  | cons f fs ih =>
    intro i r hr
    unfold pushLayersGo at hr
    cases hbytes : files f with
    | none =>
      rw [hbytes] at hr
      cases hr
    | some bytes =>
      rw [hbytes] at hr
      simp only [] at hr
      rw [pushBlob_head_ok hash registryUrl repository bytes (oracles i) (hall i)] at hr
      cases hrest : (pushLayersGo hash registryUrl repository files oracles (i + 1) fs).1 with
      | error e =>
        rw [hrest] at hr
        simp only [List.mem_append, List.mem_singleton] at hr
        rcases hr with rfl | hr
        · rfl
        · exact ih (i + 1) r hr
      | ok ds =>
        rw [hrest] at hr
        simp only [List.mem_append, List.mem_singleton] at hr
        rcases hr with rfl | hr
        · rfl
        · exact ih (i + 1) r hr

theorem pushLayersGo_ok_spec (hash : List Nat → String) (registryUrl repository : String)
    (files : String → Option (List Nat)) (oracles : Nat → BlobOracle) :
    ∀ (fs : List String) (i : Nat) (ds : List (String × Nat)),
      (pushLayersGo hash registryUrl repository files oracles i fs).1 = Except.ok ds →
      ds.length = fs.length ∧
      ∀ (k : Nat) (f : String), fs[k]? = some f →
        ∃ bytes, files f = some bytes ∧
          ds[k]? = some (digestOf hash bytes, bytes.length) := by
  intro fs
  induction fs with
  | nil =>
    intro i ds h
    simp only [pushLayersGo, Except.ok.injEq] at h
    subst h
    exact ⟨rfl, by intro k f hk; cases hk⟩
  | cons f fs ih =>
    intro i ds h
    unfold pushLayersGo at h
    split at h
    · cases h
    · next bytes hbytes =>
      split at h
      · cases h
      · next d hres =>
        split at h
        · cases h
        · next ds2 hrest =>
          simp only [Except.ok.injEq] at h
          subst h
          obtain ⟨hlen, hspec⟩ := ih (i + 1) ds2 hrest
          have hd := pushBlob_ok_pair hash registryUrl repository bytes (oracles i) hres
          subst hd
          constructor
          · simp [hlen]
          · intro k g hk
            cases k with
            | zero =>
              simp only [List.getElem?_cons_zero, Option.some.injEq] at hk
              subst hk
              exact ⟨bytes, hbytes, by simp⟩
            | succ k2 =>
              simp only [List.getElem?_cons_succ] at hk ⊢
              exact hspec k2 g hk

theorem pushBlob_head_ok_no_upload (hash : List Nat → String)
    (registryUrl repository : String) (bytes : List Nat) (o : BlobOracle)
    (h : o.head = .ok) :
    ∀ r ∈ (pushBlob hash registryUrl repository bytes o).reqs, isUploadReq r = false := by
  rw [pushBlob_head_ok hash registryUrl repository bytes o h]
  intro r hr
  rcases List.mem_singleton.mp hr with rfl
  rfl

/-! ### Claim C7 -/

/-- C7: the blob pusher existence check: on a successful head the result
is the digest and size and the only request is the head itself, no post
or put being issued; on a head failure whose response status differs
from 404 a warning is logged and the post upload attempt is issued
anyway; and pushing an archive whose existence checks all succeed issues
no upload request at all while the manifest put is still sent when the
push succeeds. -/
theorem pushBlob_head_check_behavior :
    (∀ (hash : List Nat → String) (registryUrl repository : String)
        (bytes : List Nat) (o : BlobOracle), o.head = .ok →
      (pushBlob hash registryUrl repository bytes o).result =
        Except.ok (digestOf hash bytes, bytes.length) ∧
      (pushBlob hash registryUrl repository bytes o).reqs =
        [RegReq.headBlob ("/v2/" ++ repository ++ "/blobs/" ++ digestOf hash bytes)] ∧
      ∀ r ∈ (pushBlob hash registryUrl repository bytes o).reqs,
        isUploadReq r = false) ∧
    (∀ (hash : List Nat → String) (registryUrl repository : String)
        (bytes : List Nat) (o : BlobOracle) (s : Nat), o.head = .errStatus s → s ≠ 404 →
      (pushBlob hash registryUrl repository bytes o).warned = true ∧
      RegReq.postUpload ("/v2/" ++ repository ++ "/blobs/uploads/") ∈
        (pushBlob hash registryUrl repository bytes o).reqs) ∧
    (∀ (hash : List Nat → String) (registryUrl repository tag : String)
        (ar : Archive) (oConfig : BlobOracle) (oLayers : Nat → BlobOracle)
        (oManifest : Except Unit Unit),
      oConfig.head = .ok → (∀ i, (oLayers i).head = .ok) →
      (∀ e ∈ (pushTarball hash registryUrl repository tag ar oConfig oLayers oManifest).2,
        ∀ r, e = PushEvent.reg r → isUploadReq r = false) ∧
      (∀ m, (pushTarball hash registryUrl repository tag ar oConfig oLayers oManifest).1 =
          Except.ok m →
        PushEvent.reg (RegReq.putManifest ("/v2/" ++ repository ++ "/manifests/" ++ tag)) ∈
          (pushTarball hash registryUrl repository tag ar oConfig oLayers oManifest).2)) := by
  refine ⟨?_, ?_, ?_⟩
  · intro hash registryUrl repository bytes o h
    rw [pushBlob_head_ok hash registryUrl repository bytes o h]
    refine ⟨rfl, rfl, ?_⟩
    intro r hr
    rcases List.mem_singleton.mp hr with rfl
    rfl
  · intro hash registryUrl repository bytes o s h hne
    obtain ⟨hd, pst, pt⟩ := o
    simp only at h
    subst h
    have hw : headWarn (HeadOutcome.errStatus s) = true := by
      simp [headWarn, hne]
    cases pst <;> cases pt <;> simp [pushBlob, hw]
  · intro hash registryUrl repository tag ar oConfig oLayers oManifest hc hl
    constructor
    · intro e he r hre
      subst hre
      unfold pushTarball at he
      cases hmeta : ar.index.head? with
      | none =>
        rw [hmeta] at he
        simp only [] at he
        rcases List.mem_singleton.mp he with he
        cases he
      | some meta =>
        rw [hmeta] at he
        simp only [] at he
        cases hcf : ar.files meta.Config with
        | none =>
          rw [hcf] at he
          simp only [] at he
          rcases List.mem_singleton.mp he with he
          cases he
        | some configBytes =>
          rw [hcf] at he
          simp only [] at he
          cases hcres : (pushBlob hash registryUrl repository configBytes oConfig).result with
          | error e2 =>
            rw [hcres] at he
            rcases List.mem_cons.mp he with he | he
            · cases he
            · obtain ⟨a, ha, hae⟩ := List.mem_map.mp he
              injection hae with h2
              subst h2
              exact pushBlob_head_ok_no_upload hash registryUrl repository configBytes
                oConfig hc a ha
          | ok cRes =>
            rw [hcres] at he
            cases hlo : (pushLayersGo hash registryUrl repository ar.files oLayers 0
                meta.Layers).1 with
            | error e2 =>
              rw [hlo] at he
              rcases List.mem_cons.mp he with he | he
              · cases he
              rcases List.mem_append.mp he with he | he
              · obtain ⟨a, ha, hae⟩ := List.mem_map.mp he
                injection hae with h2
                subst h2
                exact pushBlob_head_ok_no_upload hash registryUrl repository configBytes
                  oConfig hc a ha
              · obtain ⟨a, ha, hae⟩ := List.mem_map.mp he
                injection hae with h2
                subst h2
                exact pushLayersGo_heads_ok hash registryUrl repository ar.files oLayers
                  hl meta.Layers 0 a ha
            | ok lRes =>
              rw [hlo] at he
              cases hm : oManifest with
              | error e2 =>
                rw [hm] at he
                rcases List.mem_cons.mp he with he | he
                · cases he
                rcases List.mem_append.mp he with he | he
                · rcases List.mem_append.mp he with he | he
                  · obtain ⟨a, ha, hae⟩ := List.mem_map.mp he
                    injection hae with h2
                    subst h2
                    exact pushBlob_head_ok_no_upload hash registryUrl repository configBytes
                      oConfig hc a ha
                  · obtain ⟨a, ha, hae⟩ := List.mem_map.mp he
                    injection hae with h2
                    subst h2
                    exact pushLayersGo_heads_ok hash registryUrl repository ar.files oLayers
                      hl meta.Layers 0 a ha
                · rcases List.mem_singleton.mp he with he
                  injection he with h2
                  subst h2
                  rfl
              | ok u =>
                rw [hm] at he
                rcases List.mem_cons.mp he with he | he
                · cases he
                rcases List.mem_append.mp he with he | he
                · rcases List.mem_append.mp he with he | he
                  · obtain ⟨a, ha, hae⟩ := List.mem_map.mp he
                    injection hae with h2
                    subst h2
                    exact pushBlob_head_ok_no_upload hash registryUrl repository configBytes
                      oConfig hc a ha
                  · obtain ⟨a, ha, hae⟩ := List.mem_map.mp he
                    injection hae with h2
                    subst h2
                    exact pushLayersGo_heads_ok hash registryUrl repository ar.files oLayers
                      hl meta.Layers 0 a ha
                · rcases List.mem_cons.mp he with he | he
                  · injection he with h2
                    subst h2
                    rfl
                  · rcases List.mem_singleton.mp he with he
                    cases he
    · intro m hok
      unfold pushTarball at hok ⊢
      cases hmeta : ar.index.head? with
      | none => rw [hmeta] at hok; cases hok
      | some meta =>
        rw [hmeta] at hok
        simp only [] at hok ⊢
        cases hcf : ar.files meta.Config with
        | none => rw [hcf] at hok; simp only [] at hok; cases hok
        | some configBytes =>
          rw [hcf] at hok
          simp only [] at hok ⊢
          cases hcres : (pushBlob hash registryUrl repository configBytes oConfig).result with
          | error e2 => rw [hcres] at hok; cases hok
          | ok cRes =>
            rw [hcres] at hok
            simp only [] at hok ⊢
            cases hlo : (pushLayersGo hash registryUrl repository ar.files oLayers 0
                meta.Layers).1 with
            | error e2 => rw [hlo] at hok; cases hok
            | ok lRes =>
              rw [hlo] at hok
              simp only [] at hok ⊢
              cases hm : oManifest with
              | error e2 => rw [hm] at hok; cases hok
              | ok u =>
                simp

/-- C7 witness: a blob whose head check succeeds is skipped. -/
theorem pushBlob_head_check_behavior_witness :
    ((⟨HeadOutcome.ok, Except.ok "loc", Except.ok ()⟩ : BlobOracle).head = .ok) ∧
    ((pushBlob (fun _ => "h") "http://r" "svc" [1, 2]
        ⟨HeadOutcome.ok, Except.ok "loc", Except.ok ()⟩).result =
      Except.ok (digestOf (fun _ => "h") [1, 2], ([1, 2] : List Nat).length) ∧
    (pushBlob (fun _ => "h") "http://r" "svc" [1, 2]
        ⟨HeadOutcome.ok, Except.ok "loc", Except.ok ()⟩).reqs =
      [RegReq.headBlob ("/v2/" ++ "svc" ++ "/blobs/" ++ digestOf (fun _ => "h") [1, 2])] ∧
    ∀ r ∈ (pushBlob (fun _ => "h") "http://r" "svc" [1, 2]
        ⟨HeadOutcome.ok, Except.ok "loc", Except.ok ()⟩).reqs,
      isUploadReq r = false) :=
  ⟨rfl,
    pushBlob_head_check_behavior.1 (fun _ => "h") "http://r" "svc" [1, 2]
      ⟨HeadOutcome.ok, Except.ok "loc", Except.ok ()⟩ rfl⟩

/-! ### Claim C1 -/

/-- C1: when pushTarball publishes a manifest, the layers array lists,
in the order declared by the first index entry, exactly the digests and
byte sizes of those layer files, and the config field holds the digest
and size of the config file. -/
theorem pushTarball_manifest_contents (hash : List Nat → String)
    (registryUrl repository tag : String) (ar : Archive) (oConfig : BlobOracle)
    (oLayers : Nat → BlobOracle) (oManifest : Except Unit Unit) (m : Manifest)
    (hok : (pushTarball hash registryUrl repository tag ar oConfig oLayers oManifest).1 =
      Except.ok m) :
    ∃ meta, ar.index.head? = some meta ∧
      (∃ configBytes, ar.files meta.Config = some configBytes ∧
        m.config.digest = digestOf hash configBytes ∧
        m.config.size = configBytes.length) ∧
      m.layers.length = meta.Layers.length ∧
      ∀ (k : Nat) (f : String), meta.Layers[k]? = some f →
        ∃ bytes, ar.files f = some bytes ∧
          m.layers[k]? = some ⟨layerMediaType, bytes.length, digestOf hash bytes⟩ := by
  unfold pushTarball at hok
  cases hmeta : ar.index.head? with
  | none => rw [hmeta] at hok; cases hok
  | some meta =>
    rw [hmeta] at hok
    simp only [] at hok
    refine ⟨meta, rfl, ?_⟩
    cases hcf : ar.files meta.Config with
    | none => rw [hcf] at hok; simp only [] at hok; cases hok
    | some configBytes =>
      rw [hcf] at hok
      simp only [] at hok
      cases hcres : (pushBlob hash registryUrl repository configBytes oConfig).result with
      | error e => rw [hcres] at hok; cases hok
      | ok cRes =>
        rw [hcres] at hok
        have hcpair := pushBlob_ok_pair hash registryUrl repository configBytes oConfig hcres
        subst hcpair
        cases hlo : (pushLayersGo hash registryUrl repository ar.files oLayers 0
            meta.Layers).1 with
        | error e => rw [hlo] at hok; cases hok
        | ok lRes =>
          rw [hlo] at hok
          cases hm : oManifest with
          | error e => rw [hm] at hok; cases hok
          | ok u =>
            rw [hm] at hok
            simp only [Except.ok.injEq] at hok
            subst hok
            obtain ⟨hlen, hspec⟩ :=
              pushLayersGo_ok_spec hash registryUrl repository ar.files oLayers
                meta.Layers 0 lRes hlo
            refine ⟨⟨configBytes, rfl, rfl, rfl⟩, by simp [hlen], ?_⟩
            intro k f hk
            obtain ⟨bytes, hb, hdk⟩ := hspec k f hk
            refine ⟨bytes, hb, ?_⟩
            simp [List.getElem?_map, hdk]

/-- C1 witness: a two-layer archive pushed with every request
succeeding. -/
theorem pushTarball_manifest_contents_witness :
    ((pushTarball (fun b => String.mk (List.replicate b.length 'x')) "http://r" "svc" "v1"
        ⟨[⟨"cfg.json", ["l1", "l2"]⟩],
          fun n => if n = "cfg.json" then some [9] else
            if n = "l1" then some [1, 2] else if n = "l2" then some [3] else none⟩
        ⟨HeadOutcome.ok, Except.ok "loc", Except.ok ()⟩
        (fun _ => ⟨HeadOutcome.ok, Except.ok "loc", Except.ok ()⟩)
        (Except.ok ())).1 =
      Except.ok
        { schemaVersion := 2
          mediaType := manifestMediaType
          config := ⟨configMediaType, 1,
            digestOf (fun b => String.mk (List.replicate b.length 'x')) [9]⟩
          layers :=
            [⟨layerMediaType, 2,
               digestOf (fun b => String.mk (List.replicate b.length 'x')) [1, 2]⟩,
             ⟨layerMediaType, 1,
               digestOf (fun b => String.mk (List.replicate b.length 'x')) [3]⟩] }) ∧
    (∃ meta,
      (⟨[⟨"cfg.json", ["l1", "l2"]⟩],
        fun n => if n = "cfg.json" then some [9] else
          if n = "l1" then some [1, 2] else
            if n = "l2" then some [3] else none⟩ : Archive).index.head? = some meta ∧
      (∃ configBytes,
        (⟨[⟨"cfg.json", ["l1", "l2"]⟩],
          fun n => if n = "cfg.json" then some [9] else
            if n = "l1" then some [1, 2] else
              if n = "l2" then some [3] else none⟩ : Archive).files meta.Config =
          some configBytes ∧
        ({ schemaVersion := 2
           mediaType := manifestMediaType
           config := ⟨configMediaType, 1,
             digestOf (fun b => String.mk (List.replicate b.length 'x')) [9]⟩
           layers :=
             [⟨layerMediaType, 2,
                digestOf (fun b => String.mk (List.replicate b.length 'x')) [1, 2]⟩,
              ⟨layerMediaType, 1,
                digestOf (fun b => String.mk (List.replicate b.length 'x')) [3]⟩] } :
          Manifest).config.digest =
          digestOf (fun b => String.mk (List.replicate b.length 'x')) configBytes ∧
        ({ schemaVersion := 2
           mediaType := manifestMediaType
           config := ⟨configMediaType, 1,
             digestOf (fun b => String.mk (List.replicate b.length 'x')) [9]⟩
           layers :=
             [⟨layerMediaType, 2,
                digestOf (fun b => String.mk (List.replicate b.length 'x')) [1, 2]⟩,
              ⟨layerMediaType, 1,
                digestOf (fun b => String.mk (List.replicate b.length 'x')) [3]⟩] } :
          Manifest).config.size = configBytes.length) ∧
      ({ schemaVersion := 2
         mediaType := manifestMediaType
         config := ⟨configMediaType, 1,
           digestOf (fun b => String.mk (List.replicate b.length 'x')) [9]⟩
         layers :=
           [⟨layerMediaType, 2,
              digestOf (fun b => String.mk (List.replicate b.length 'x')) [1, 2]⟩,
            ⟨layerMediaType, 1,
              digestOf (fun b => String.mk (List.replicate b.length 'x')) [3]⟩] } :
        Manifest).layers.length = meta.Layers.length ∧
      ∀ (k : Nat) (f : String), meta.Layers[k]? = some f →
        ∃ bytes,
          (⟨[⟨"cfg.json", ["l1", "l2"]⟩],
            fun n => if n = "cfg.json" then some [9] else
              if n = "l1" then some [1, 2] else
                if n = "l2" then some [3] else none⟩ : Archive).files f = some bytes ∧
          ({ schemaVersion := 2
             mediaType := manifestMediaType
             config := ⟨configMediaType, 1,
               digestOf (fun b => String.mk (List.replicate b.length 'x')) [9]⟩
             layers :=
               [⟨layerMediaType, 2,
                  digestOf (fun b => String.mk (List.replicate b.length 'x')) [1, 2]⟩,
                ⟨layerMediaType, 1,
                  digestOf (fun b => String.mk (List.replicate b.length 'x')) [3]⟩] } :
            Manifest).layers[k]? =
            some ⟨layerMediaType, bytes.length,
              digestOf (fun b => String.mk (List.replicate b.length 'x')) bytes⟩) :=
  ⟨rfl,
    pushTarball_manifest_contents (fun b => String.mk (List.replicate b.length 'x'))
      "http://r" "svc" "v1"
      ⟨[⟨"cfg.json", ["l1", "l2"]⟩],
        fun n => if n = "cfg.json" then some [9] else
          if n = "l1" then some [1, 2] else if n = "l2" then some [3] else none⟩
      ⟨HeadOutcome.ok, Except.ok "loc", Except.ok ()⟩
      (fun _ => ⟨HeadOutcome.ok, Except.ok "loc", Except.ok ()⟩)
      (Except.ok ())
      { schemaVersion := 2
        mediaType := manifestMediaType
        config := ⟨configMediaType, 1,
          digestOf (fun b => String.mk (List.replicate b.length 'x')) [9]⟩
        layers :=
          [⟨layerMediaType, 2,
             digestOf (fun b => String.mk (List.replicate b.length 'x')) [1, 2]⟩,
           ⟨layerMediaType, 1,
             digestOf (fun b => String.mk (List.replicate b.length 'x')) [3]⟩] }
      rfl⟩

/-! ### Claim C2 -/

theorem not_removeRepo_in_push_events (l : List PushEvent) :
    DeployEvent.removeRepoDir ∉ l.map DeployEvent.push := by
  intro h
  obtain ⟨a, _, hae⟩ := List.mem_map.mp h
  cases hae

/-- C2: the code contradicts the claim: no exit path of the run-deploy
handler removes the repository clone directory, the successful path
included, and when the manifest push fails the extraction directory is
not removed either; the handler only reports the terminal outcome. -/
theorem runDeploy_leaks_temp_dirs :
    (∀ (hash : List Nat → String) (registryUrl repository tag : String)
        (ar : Archive) (oConfig : BlobOracle) (oLayers : Nat → BlobOracle)
        (oManifest : Except Unit Unit) (tarFound cloneOk : Bool)
        (located : Option String) (gitPushOk : Bool),
      DeployEvent.removeRepoDir ∉
        runDeploy hash registryUrl repository tag ar oConfig oLayers oManifest
          tarFound cloneOk located gitPushOk) ∧
    (∀ (hash : List Nat → String) (registryUrl repository tag : String)
        (ar : Archive) (oConfig : BlobOracle) (oLayers : Nat → BlobOracle)
        (oManifest : Except Unit Unit),
      (pushTarball hash registryUrl repository tag ar oConfig oLayers oManifest).1 =
        Except.error () →
      PushEvent.removeTempDir ∉
        (pushTarball hash registryUrl repository tag ar oConfig oLayers oManifest).2) := by
  constructor
  · intro hash registryUrl repository tag ar oC oL oM tarF cloneOk located gitOk hmem
    unfold runDeploy at hmem
    cases tarF with
    | false =>
      simp only [Bool.false_eq_true, if_false] at hmem
      exact absurd hmem (by decide)
    | true =>
      simp only [if_true] at hmem
      cases hp : (pushTarball hash registryUrl repository tag ar oC oL oM).1 with
      | error e =>
        rw [hp] at hmem
        rcases List.mem_append.mp hmem with h | h
        · exact not_removeRepo_in_push_events _ h
        · exact absurd h (by decide)
      | ok m =>
        rw [hp] at hmem
        simp only [] at hmem
        cases cloneOk with
        | false =>
          simp only [Bool.false_eq_true, if_false] at hmem
          rcases List.mem_append.mp hmem with h | h
          · exact not_removeRepo_in_push_events _ h
          · exact absurd h (by decide)
        | true =>
          simp only [if_true] at hmem
          cases located with
          | none =>
            rcases List.mem_append.mp hmem with h | h
            · exact not_removeRepo_in_push_events _ h
            · exact absurd h (by decide)
          | some p =>
            simp only [] at hmem
            cases gitOk with
            | false =>
              simp only [Bool.false_eq_true, if_false] at hmem
              rcases List.mem_append.mp hmem with h | h
              · exact not_removeRepo_in_push_events _ h
              · exact absurd h (by decide)
            | true =>
              simp only [if_true] at hmem
              rcases List.mem_append.mp hmem with h | h
              · exact not_removeRepo_in_push_events _ h
              · exact absurd h (by decide)
  · intro hash registryUrl repository tag ar oC oL oM herr hmem
    unfold pushTarball at herr hmem
    cases hmeta : ar.index.head? with
    | none =>
      rw [hmeta] at hmem
      simp only [] at hmem
      exact absurd hmem (by decide)
    | some meta =>
      rw [hmeta] at hmem
      simp only [] at hmem
      cases hcf : ar.files meta.Config with
      | none =>
        rw [hcf] at hmem
        simp only [] at hmem
        exact absurd hmem (by decide)
      | some configBytes =>
        rw [hcf] at hmem
        simp only [] at hmem
        cases hcres : (pushBlob hash registryUrl repository configBytes oC).result with
        | error e =>
          rw [hcres] at hmem
          rcases List.mem_cons.mp hmem with h | h
          · cases h
          · obtain ⟨a, _, hae⟩ := List.mem_map.mp h
            cases hae
        | ok cRes =>
          rw [hcres] at hmem
          simp only [] at hmem
          cases hlo : (pushLayersGo hash registryUrl repository ar.files oL 0
              meta.Layers).1 with
          | error e =>
            rw [hlo] at hmem
            rcases List.mem_cons.mp hmem with h | h
            · cases h
            rcases List.mem_append.mp h with h | h
            · obtain ⟨a, _, hae⟩ := List.mem_map.mp h
              cases hae
            · obtain ⟨a, _, hae⟩ := List.mem_map.mp h
              cases hae
          | ok lRes =>
            rw [hlo] at hmem
            simp only [] at hmem
            cases hm : oM with
            | error e =>
              rw [hm] at hmem
              rcases List.mem_cons.mp hmem with h | h
              · cases h
              rcases List.mem_append.mp h with h | h
              · rcases List.mem_append.mp h with h | h
                · obtain ⟨a, _, hae⟩ := List.mem_map.mp h
                  cases hae
                · obtain ⟨a, _, hae⟩ := List.mem_map.mp h
                  cases hae
              · rcases List.mem_singleton.mp h with h
                cases h
            | ok u =>
              rw [hmeta] at herr
              simp only [] at herr
              rw [hcf] at herr
              simp only [] at herr
              rw [hcres] at herr
              simp only [] at herr
              rw [hlo] at herr
              simp only [] at herr
              rw [hm] at herr
              cases herr

/-- C2 witness: a push whose archive index is empty fails and leaves the
extraction directory in place. -/
theorem runDeploy_leaks_temp_dirs_witness :
    ((pushTarball (fun _ => "h") "http://r" "svc" "v1"
        ⟨[], fun _ => none⟩
        ⟨HeadOutcome.ok, Except.ok "loc", Except.ok ()⟩
        (fun _ => ⟨HeadOutcome.ok, Except.ok "loc", Except.ok ()⟩)
        (Except.ok ())).1 = Except.error ()) ∧
    (PushEvent.removeTempDir ∉
      (pushTarball (fun _ => "h") "http://r" "svc" "v1"
        ⟨[], fun _ => none⟩
        ⟨HeadOutcome.ok, Except.ok "loc", Except.ok ()⟩
        (fun _ => ⟨HeadOutcome.ok, Except.ok "loc", Except.ok ()⟩)
        (Except.ok ())).2) :=
  ⟨rfl,
    runDeploy_leaks_temp_dirs.2 (fun _ => "h") "http://r" "svc" "v1"
      ⟨[], fun _ => none⟩
      ⟨HeadOutcome.ok, Except.ok "loc", Except.ok ()⟩
      (fun _ => ⟨HeadOutcome.ok, Except.ok "loc", Except.ok ()⟩)
      (Except.ok ()) rfl⟩

/-! ### Claim C8 -/

/-- C8: amended: the extraction loop writes every entry unconditionally,
directory entries creating directories and file entries streaming their
bytes to the matching paths; no entry is skipped, paths holding the
version control directory name included. -/
theorem extractTar_writes_all (tempDir : String) (entries : List TarEntry) :
    (extractTar tempDir entries).length = entries.length ∧
    ∀ (k : Nat) (e : TarEntry), entries[k]? = some e →
      (extractTar tempDir entries)[k]? =
        some (if e.isDir then WriteEvent.makeDir (tempDir ++ "/" ++ e.name)
              else WriteEvent.writeFile (tempDir ++ "/" ++ e.name) e.content) := by
  constructor
  · simp [extractTar]
  · intro k e hk
    simp only [extractTar, List.getElem?_map, hk, Option.map_some']

/-- C8 witness: a directory entry and a file entry are both written. -/
theorem extractTar_writes_all_witness :
    (([⟨"dir1", true, []⟩, ⟨"a.txt", false, [7]⟩] : List TarEntry)[1]? =
      some ⟨"a.txt", false, [7]⟩) ∧
    ((extractTar "/tmp/t" [⟨"dir1", true, []⟩, ⟨"a.txt", false, [7]⟩]).length =
      ([⟨"dir1", true, []⟩, ⟨"a.txt", false, [7]⟩] : List TarEntry).length ∧
    ∀ (k : Nat) (e : TarEntry),
      ([⟨"dir1", true, []⟩, ⟨"a.txt", false, [7]⟩] : List TarEntry)[k]? = some e →
      (extractTar "/tmp/t" [⟨"dir1", true, []⟩, ⟨"a.txt", false, [7]⟩])[k]? =
        some (if e.isDir then WriteEvent.makeDir ("/tmp/t" ++ "/" ++ e.name)
              else WriteEvent.writeFile ("/tmp/t" ++ "/" ++ e.name) e.content)) :=
  ⟨rfl, extractTar_writes_all "/tmp/t" [⟨"dir1", true, []⟩, ⟨"a.txt", false, [7]⟩]⟩

/-- C8 counterexample: an entry whose path holds the reserved version
control directory name is written all the same, so the claim that such
entries are skipped fails on the extraction loop. -/
theorem extractTar_writes_git_entry :
    extractTar "/tmp/x" [⟨".git/config", false, [1]⟩] =
      [WriteEvent.writeFile "/tmp/x/.git/config" [1]] ∧
    containsSub gitName ".git/config".toList = true := by decide

/-! ### Locator helper lemmas -/

theorem isPrefixOf_append_self : ∀ (l r : List Char), l.isPrefixOf (l ++ r) = true := by
  intro l r
  induction l with
  | nil => simp
  | cons c cs ih => simp [List.isPrefixOf_cons₂, ih]

mutual

theorem getAllFilesNode_path_structure :
    ∀ (pre : String) (node : FsNode) (p c : String),
      (p, c) ∈ getAllFilesNode pre node → ∃ s, p.data = pre.data ++ s
  | pre, .file n cc, p, c, h => by
    simp only [getAllFilesNode] at h
    have heq := List.mem_singleton.mp h
    have hp : p = pre ++ n := congrArg Prod.fst heq
    exact ⟨n.data, by rw [hp]; exact String.data_append pre n⟩
  | pre, .dir n ch, p, c, h => by
    simp only [getAllFilesNode] at h
    by_cases hg : containsSub gitName n.toList = true
    · rw [if_pos hg] at h
      cases h
    · rw [if_neg hg] at h
      obtain ⟨s, hs⟩ := getAllFilesList_path_structure (pre ++ n ++ "/") ch p c h
      refine ⟨n.data ++ "/".data ++ s, ?_⟩
      rw [hs]
      rw [String.data_append, String.data_append]
      simp [List.append_assoc]

theorem getAllFilesList_path_structure :
    ∀ (pre : String) (nodes : List FsNode) (p c : String),
      (p, c) ∈ getAllFilesList pre nodes → ∃ s, p.data = pre.data ++ s
  | pre, [], p, c, h => by simp [getAllFilesList] at h
  | pre, node :: rest, p, c, h => by
    simp only [getAllFilesList] at h
    rcases List.mem_append.mp h with hmem | hmem
    · exact getAllFilesNode_path_structure pre node p c hmem
    · exact getAllFilesList_path_structure pre rest p c hmem

end

theorem findYamlFile_mem (identifier : String) :
    ∀ (files : List (String × String)) (p : String),
      findYamlFile identifier files = some p → ∃ c, (p, c) ∈ files := by
  intro files
  induction files with
  | nil => intro p h; cases h
  | cons fc rest ih =>
    intro p h
    obtain ⟨f, c⟩ := fc
    simp only [findYamlFile] at h
    by_cases hcond : (isYamlPath f && containsSub identifier.toList c.toList) = true
    · rw [if_pos hcond] at h
      cases h
      exact ⟨c, List.mem_cons_self _ _⟩
    · rw [if_neg hcond] at h
      obtain ⟨c2, hc2⟩ := ih p h
      exact ⟨c2, List.mem_cons_of_mem _ hc2⟩

/-! ### Claim C5 -/

/-- C5: amended: when the hint resolves to an existing directory the
locator searches only that directory tree first, and any file found
there lies under the hinted path; but when that search finds nothing the
locator does not fail: it falls back to searching the entire repository
tree, so a file outside the hinted directory can be selected, and the
run fails only when the full search also finds no match. -/
theorem locateManifest_dir_hint (repo children : List FsNode)
    (hintPath identifier : String) :
    (∀ p, findYamlFile identifier (getAllFilesList (hintPath ++ "/") children) = some p →
      locateManifest repo (.dirHint hintPath children) identifier = some p ∧
      (hintPath ++ "/").toList.isPrefixOf p.toList = true) ∧
    (findYamlFile identifier (getAllFilesList (hintPath ++ "/") children) = none →
      locateManifest repo (.dirHint hintPath children) identifier =
        findYamlFile identifier (getAllFilesList "" repo)) := by
  constructor
  · intro p hp
    constructor
    · unfold locateManifest hintTarget
      simp only []
      rw [hp]
    · obtain ⟨c, hc⟩ := findYamlFile_mem identifier _ p hp
      obtain ⟨s, hs⟩ := getAllFilesList_path_structure (hintPath ++ "/") children p c hc
      show (hintPath ++ "/").data.isPrefixOf p.data = true
      rw [hs]
      exact isPrefixOf_append_self _ s
  · intro hnone
    unfold locateManifest hintTarget
    simp only []
    rw [hnone]

/-- C5 witness: the hinted directory holds a matching file and it is
selected, with its path under the hinted directory. -/
theorem locateManifest_dir_hint_witness :
    (findYamlFile "svc" (getAllFilesList ("hinted" ++ "/")
        [FsNode.file "a.yaml" "name: svc"]) = some "hinted/a.yaml") ∧
    (locateManifest [FsNode.dir "hinted" [FsNode.file "a.yaml" "name: svc"]]
        (HintCase.dirHint "hinted" [FsNode.file "a.yaml" "name: svc"]) "svc" =
      some "hinted/a.yaml" ∧
    ("hinted" ++ "/").toList.isPrefixOf "hinted/a.yaml".toList = true) :=
  ⟨by decide,
    (locateManifest_dir_hint [FsNode.dir "hinted" [FsNode.file "a.yaml" "name: svc"]]
      [FsNode.file "a.yaml" "name: svc"] "hinted" "svc").1 "hinted/a.yaml" (by decide)⟩

/-- C5 counterexample: when the hinted directory holds no matching file,
the locator selects a matching file outside the hinted directory through
the repository-wide fallback search, instead of failing. -/
theorem locateManifest_fallback_outside :
    locateManifest
      [FsNode.dir "hinted" [FsNode.file "a.yaml" "nothing"],
       FsNode.file "b.yaml" "name: svc"]
      (HintCase.dirHint "hinted" [FsNode.file "a.yaml" "nothing"]) "svc" =
      some "b.yaml" ∧
    findYamlFile "svc" (getAllFilesList ("hinted" ++ "/")
      [FsNode.file "a.yaml" "nothing"]) = none ∧
    ("hinted" ++ "/").toList.isPrefixOf "b.yaml".toList = false := by decide

/-! ### Claim C10 -/

theorem pushBlob_reqs_usesRepo (hash : List Nat → String)
    (registryUrl repository : String) (bytes : List Nat) (o : BlobOracle) :
    ∀ r ∈ (pushBlob hash registryUrl repository bytes o).reqs,
      usesRepoPath repository (PushEvent.reg r) := by
  obtain ⟨hd, pst, pt⟩ := o
  intro r hr
  cases hd <;> cases pst <;> cases pt <;> simp only [pushBlob] at hr <;> fin_cases hr <;>
    first
      | exact ⟨digestOf hash bytes, rfl⟩
      | rfl
      | trivial

theorem pushLayersGo_reqs_usesRepo (hash : List Nat → String)
    (registryUrl repository : String) (files : String → Option (List Nat))
    (oracles : Nat → BlobOracle) :
    ∀ (fs : List String) (i : Nat),
      ∀ r ∈ (pushLayersGo hash registryUrl repository files oracles i fs).2,
        usesRepoPath repository (PushEvent.reg r) := by
  intro fs
  induction fs with
  | nil => intro i r hr; cases hr
  | cons f fs ih =>
    intro i r hr
    unfold pushLayersGo at hr
    cases hbytes : files f with
    | none => rw [hbytes] at hr; cases hr
    | some bytes =>
      rw [hbytes] at hr
      simp only [] at hr
      cases hres : (pushBlob hash registryUrl repository bytes (oracles i)).result with
      | error e =>
        rw [hres] at hr
        exact pushBlob_reqs_usesRepo hash registryUrl repository bytes (oracles i) r hr
      | ok d =>
        rw [hres] at hr
        cases hrest : (pushLayersGo hash registryUrl repository files oracles (i + 1) fs).1 with
        | error e =>
          rw [hrest] at hr
          rcases List.mem_append.mp hr with h | h
          · exact pushBlob_reqs_usesRepo hash registryUrl repository bytes (oracles i) r h
          · exact ih (i + 1) r h
        | ok ds =>
          rw [hrest] at hr
          rcases List.mem_append.mp hr with h | h
          · exact pushBlob_reqs_usesRepo hash registryUrl repository bytes (oracles i) r h
          · exact ih (i + 1) r h

theorem pushTarball_events_usesRepo (hash : List Nat → String)
    (registryUrl repository tag : String) (ar : Archive) (oConfig : BlobOracle)
    (oLayers : Nat → BlobOracle) (oManifest : Except Unit Unit) :
    ∀ e ∈ (pushTarball hash registryUrl repository tag ar oConfig oLayers oManifest).2,
      usesRepoPath repository e := by
  intro e he
  unfold pushTarball at he
  cases hmeta : ar.index.head? with
  | none =>
    rw [hmeta] at he
    simp only [] at he
    rcases List.mem_singleton.mp he with rfl
    trivial
  | some meta =>
    rw [hmeta] at he
    simp only [] at he
    cases hcf : ar.files meta.Config with
    | none =>
      rw [hcf] at he
      simp only [] at he
      rcases List.mem_singleton.mp he with rfl
      trivial
    | some configBytes =>
      rw [hcf] at he
      simp only [] at he
      cases hcres : (pushBlob hash registryUrl repository configBytes oConfig).result with
      | error e2 =>
        rw [hcres] at he
        rcases List.mem_cons.mp he with rfl | he
        · trivial
        · obtain ⟨a, ha, hae⟩ := List.mem_map.mp he
          subst hae
          exact pushBlob_reqs_usesRepo hash registryUrl repository configBytes oConfig a ha
      | ok cRes =>
        rw [hcres] at he
        cases hlo : (pushLayersGo hash registryUrl repository ar.files oLayers 0
            meta.Layers).1 with
        | error e2 =>
          rw [hlo] at he
          rcases List.mem_cons.mp he with rfl | he
          · trivial
          rcases List.mem_append.mp he with he | he
          · obtain ⟨a, ha, hae⟩ := List.mem_map.mp he
            subst hae
            exact pushBlob_reqs_usesRepo hash registryUrl repository configBytes oConfig a ha
          · obtain ⟨a, ha, hae⟩ := List.mem_map.mp he
            subst hae
            exact pushLayersGo_reqs_usesRepo hash registryUrl repository ar.files oLayers
              meta.Layers 0 a ha
        | ok lRes =>
          rw [hlo] at he
          cases hm : oManifest with
          | error e2 =>
            rw [hm] at he
            rcases List.mem_cons.mp he with rfl | he
            · trivial
            rcases List.mem_append.mp he with he | he
            · rcases List.mem_append.mp he with he | he
              · obtain ⟨a, ha, hae⟩ := List.mem_map.mp he
                subst hae
                exact pushBlob_reqs_usesRepo hash registryUrl repository configBytes
                  oConfig a ha
              · obtain ⟨a, ha, hae⟩ := List.mem_map.mp he
                subst hae
                exact pushLayersGo_reqs_usesRepo hash registryUrl repository ar.files
                  oLayers meta.Layers 0 a ha
            · rcases List.mem_singleton.mp he with rfl
              exact ⟨tag, rfl⟩
          | ok u =>
            rw [hm] at he
            rcases List.mem_cons.mp he with rfl | he
            · trivial
            rcases List.mem_append.mp he with he | he
            · rcases List.mem_append.mp he with he | he
              · obtain ⟨a, ha, hae⟩ := List.mem_map.mp he
                subst hae
                exact pushBlob_reqs_usesRepo hash registryUrl repository configBytes
                  oConfig a ha
              · obtain ⟨a, ha, hae⟩ := List.mem_map.mp he
                subst hae
                exact pushLayersGo_reqs_usesRepo hash registryUrl repository ar.files
                  oLayers meta.Layers 0 a ha
            · rcases List.mem_cons.mp he with rfl | he
              · exact ⟨tag, rfl⟩
              · rcases List.mem_singleton.mp he with rfl
                trivial

/-- C10: when the user-supplied registry coordinate holds no slash, the
whole string is used as the registry host and the repository is the
service name; and every path-addressed registry request of a push run
with that repository names it: the blob head path, the post upload path
and the manifest put path all lie under /v2/ of the repository, the blob
put going to the server-supplied upload location. -/
theorem splitCoord_no_slash (registryUrl serviceName : String)
    (h : ∀ c ∈ registryUrl.toList, c ≠ '/') :
    splitCoord registryUrl serviceName = (registryUrl, serviceName) ∧
    ∀ (hash : List Nat → String) (regBase tag : String) (ar : Archive)
        (oConfig : BlobOracle) (oLayers : Nat → BlobOracle)
        (oManifest : Except Unit Unit),
      ∀ e ∈ (pushTarball hash regBase serviceName tag ar oConfig oLayers oManifest).2,
        usesRepoPath serviceName e := by
  constructor
  · unfold splitCoord
    rw [splitOnCh_no_sep h]
    simp
  · intro hash regBase tag ar oConfig oLayers oManifest e he
    exact pushTarball_events_usesRepo hash regBase serviceName tag ar oConfig oLayers
      oManifest e he

/-- C10 witness: a coordinate without a slash and a concrete one-blob
push. -/
theorem splitCoord_no_slash_witness :
    (∀ c ∈ ("myhost:5000" : String).toList, c ≠ '/') ∧
    (splitCoord "myhost:5000" "svc" = ("myhost:5000", "svc") ∧
    ∀ (hash : List Nat → String) (regBase tag : String) (ar : Archive)
        (oConfig : BlobOracle) (oLayers : Nat → BlobOracle)
        (oManifest : Except Unit Unit),
      ∀ e ∈ (pushTarball hash regBase "svc" tag ar oConfig oLayers oManifest).2,
        usesRepoPath "svc" e) :=
  ⟨by decide, splitCoord_no_slash "myhost:5000" "svc" (by decide)⟩

end SthDeploy
